import Mathlib

/-!
Verification development for the substrate-system/cookie session-token
library.

The repository ships two variants of the same codec in `src/index.ts`:

* a synchronous variant built on node's `crypto` module, whose `sign`
  defaults to HMAC-SHA1 and which splits tokens at the constant
  `SIGNATURE_DIGEST_LENGTH = 27`;
* an asynchronous variant built on webcrypto, which decodes the secret key
  from base64, signs with HMAC-SHA-256 and splits tokens at 43.

This file gives a shallow embedding of both variants: the platform
primitives they call (HMAC-SHA1/SHA-256, the multiformats unpadded
`base64` codec used by `uint8arrays`, node's padded base64, TextEncoder /
TextDecoder UTF-8, the `json-canon` canonical serializer, and `JSON.parse`
restricted to the objects-of-strings this library produces) are modelled
as executable Lean functions on `List Nat` byte lists and `String`s, and
the library's functions are translated on top of them.  Machine integers
are `Nat` with explicit reduction modulo `2 ^ 32`; JavaScript exceptions
are modelled with `Option` / `Except`; the ephemeral random key drawn by
the constant-time comparators is passed as an explicit parameter.
-/

/-- Truncation to 32 bits. -/
def w32 (n : Nat) : Nat := n % 4294967296

/-- Left rotation of a 32-bit word. -/
def rotl (k n : Nat) : Nat :=
  w32 ((n <<< k) ||| (n >>> (32 - k)))

/-- Right rotation of a 32-bit word. -/
def rotr (k n : Nat) : Nat :=
  w32 ((n >>> k) ||| (n <<< (32 - k)))

/-- Big-endian 4-byte encoding of a 32-bit word. -/
def be32 (n : Nat) : List Nat :=
  [n / 16777216 % 256, n / 65536 % 256, n / 256 % 256, n % 256]

/-- Big-endian 8-byte encoding of a 64-bit value. -/
def be64 (n : Nat) : List Nat :=
  be32 (n / 4294967296) ++ be32 n

/-- Merkle–Damgård padding shared by SHA-1 and SHA-256: append the byte
0x80, zero bytes until the length is 56 mod 64, then the bit length as 8
big-endian bytes. -/
def shaPad (msg : List Nat) : List Nat :=
  msg ++ 128 :: List.replicate ((119 - msg.length % 64) % 64) 0
      ++ be64 (8 * msg.length)

/-- Split a byte list into chunks of 64 bytes.  Structural recursion on a
fuel argument (initialised to the list length, which bounds the number of
chunks) so that the kernel can evaluate it. -/
def chunk64Go : Nat → List Nat → List (List Nat)
  | _, [] => []
  | 0, bs => [bs]
  | fuel + 1, b :: bs =>
      ((b :: bs).take 64) :: chunk64Go fuel ((b :: bs).drop 64)

/-- Split a byte list into chunks of 64 bytes. -/
def chunk64 (bs : List Nat) : List (List Nat) := chunk64Go bs.length bs

/-- Combine a byte list into 32-bit words, 4 bytes big-endian at a time. -/
def toWords : List Nat → List Nat
  | b0 :: b1 :: b2 :: b3 :: rest =>
      (b0 * 16777216 + b1 * 65536 + b2 * 256 + b3) :: toWords rest
  | _ => []

/-- SHA-1 message schedule: extend 16 words to 80.  The accumulator is
kept in reverse order, so the words at offsets 3, 8, 14 and 16 back from
the next position are at reversed indices 2, 7, 13 and 15. -/
def sha1Sched : Nat → List Nat → List Nat
  | 0, acc => acc.reverse
  | n + 1, acc =>
      sha1Sched n ((rotl 1 (acc.getD 2 0 ^^^ acc.getD 7 0 ^^^
        acc.getD 13 0 ^^^ acc.getD 15 0)) :: acc)

/-- Round function of SHA-1; the complement of `b` is `b ^^^ 0xFFFFFFFF`
since `b < 2 ^ 32`. -/
def sha1F (i b c d : Nat) : Nat :=
  if i < 20 then (b &&& c) ||| ((b ^^^ 4294967295) &&& d)
  else if i < 40 then b ^^^ c ^^^ d
  else if i < 60 then (b &&& c) ||| (b &&& d) ||| (c &&& d)
  else b ^^^ c ^^^ d

/-- Round constants of SHA-1. -/
def sha1K (i : Nat) : Nat :=
  if i < 20 then 1518500249
  else if i < 40 then 1859775393
  else if i < 60 then 2400959708
  else 3395469782

/-- State of the SHA-1 compression function. -/
abbrev Sha1St := Nat × Nat × Nat × Nat × Nat

/-- One SHA-1 compression round; the second argument pairs the round index
with the schedule word. -/
def sha1Round (st : Sha1St) (iw : Nat × Nat) : Sha1St :=
  match st, iw with
  | (a, b, c, d, e), (i, w) =>
      (w32 (rotl 5 a + sha1F i b c d + e + sha1K i + w), a, rotl 30 b, c, d)

/-- SHA-1 compression of one 64-byte block. -/
def sha1Block (h : Sha1St) (block : List Nat) : Sha1St :=
  let ws := sha1Sched 64 (toWords block).reverse
  match h, ws.enum.foldl sha1Round h with
  | (h0, h1, h2, h3, h4), (a, b, c, d, e) =>
      (w32 (h0 + a), w32 (h1 + b), w32 (h2 + c), w32 (h3 + d), w32 (h4 + e))

/-- Initial state of SHA-1. -/
def sha1Init : Sha1St :=
  (1732584193, 4023233417, 2562383102, 271733878, 3285377520)

/-- Serialization of the final SHA-1 state into the 20 digest bytes. -/
def sha1Out : Sha1St → List Nat
  | (a, b, c, d, e) => be32 a ++ be32 b ++ be32 c ++ be32 d ++ be32 e

/-- SHA-1 digest of a byte list. -/
def sha1 (msg : List Nat) : List Nat :=
  sha1Out ((chunk64 (shaPad msg)).foldl sha1Block sha1Init)

/-- Round constants of SHA-256. -/
def sha256K : List Nat :=
  [1116352408, 1899447441, 3049323471, 3921009573, 961987163, 1508970993,
   2453635748, 2870763221, 3624381080, 310598401, 607225278, 1426881987,
   1925078388, 2162078206, 2614888103, 3248222580, 3835390401, 4022224774,
   264347078, 604807628, 770255983, 1249150122, 1555081692, 1996064986,
   2554220882, 2821834349, 2952996808, 3210313671, 3336571891, 3584528711,
   113926993, 338241895, 666307205, 773529912, 1294757372, 1396182291,
   1695183700, 1986661051, 2177026350, 2456956037, 2730485921, 2820302411,
   3259730800, 3345764771, 3516065817, 3600352804, 4094571909, 275423344,
   430227734, 506948616, 659060556, 883997877, 958139571, 1322822218,
   1537002063, 1747873779, 1955562222, 2024104815, 2227730452, 2361852424,
   2428436474, 2756734187, 3204031479, 3329325298]

/-- SHA-256 message schedule: extend 16 words to 64, accumulator kept in
reverse order (w[i-15] is at reversed index 14, w[i-2] at index 1). -/
def sha256Sched : Nat → List Nat → List Nat
  | 0, acc => acc.reverse
  | n + 1, acc =>
      let w15 := acc.getD 14 0
      let w2 := acc.getD 1 0
      let s0 := rotr 7 w15 ^^^ rotr 18 w15 ^^^ (w15 >>> 3)
      let s1 := rotr 17 w2 ^^^ rotr 19 w2 ^^^ (w2 >>> 10)
      sha256Sched n (w32 (acc.getD 15 0 + s0 + acc.getD 6 0 + s1) :: acc)

/-- State of the SHA-256 compression function. -/
abbrev Sha256St := Nat × Nat × Nat × Nat × Nat × Nat × Nat × Nat

/-- One SHA-256 compression round; `kw` is the round constant already
added to the schedule word. -/
def sha256Round (st : Sha256St) (kw : Nat) : Sha256St :=
  match st with
  | (a, b, c, d, e, f, g, h) =>
      let s1 := rotr 6 e ^^^ rotr 11 e ^^^ rotr 25 e
      let ch := (e &&& f) ^^^ ((e ^^^ 4294967295) &&& g)
      let t1 := w32 (h + s1 + ch + kw)
      let s0 := rotr 2 a ^^^ rotr 13 a ^^^ rotr 22 a
      let mj := (a &&& b) ^^^ (a &&& c) ^^^ (b &&& c)
      let t2 := w32 (s0 + mj)
      (w32 (t1 + t2), a, b, c, w32 (d + t1), e, f, g)

/-- SHA-256 compression of one 64-byte block. -/
def sha256Block (h : Sha256St) (block : List Nat) : Sha256St :=
  let ws := sha256Sched 48 (toWords block).reverse
  match h, (sha256K.zip ws |>.map (fun p => w32 (p.1 + p.2))).foldl
      sha256Round h with
  | (h0, h1, h2, h3, h4, h5, h6, h7), (a, b, c, d, e, f, g, hh) =>
      (w32 (h0 + a), w32 (h1 + b), w32 (h2 + c), w32 (h3 + d),
       w32 (h4 + e), w32 (h5 + f), w32 (h6 + g), w32 (h7 + hh))

/-- Initial state of SHA-256. -/
def sha256Init : Sha256St :=
  (1779033703, 3144134277, 1013904242, 2773480762,
   1359893119, 2600822924, 528734635, 1541459225)

/-- Serialization of the final SHA-256 state into the 32 digest bytes. -/
def sha256Out : Sha256St → List Nat
  | (a, b, c, d, e, f, g, h) =>
      be32 a ++ be32 b ++ be32 c ++ be32 d ++ be32 e ++ be32 f ++
      be32 g ++ be32 h

/-- SHA-256 digest of a byte list. -/
def sha256 (msg : List Nat) : List Nat :=
  sha256Out ((chunk64 (shaPad msg)).foldl sha256Block sha256Init)

/-- HMAC per RFC 2104 with the 64-byte block size used by both SHA-1 and
SHA-256 (node `createHmac` and webcrypto both implement this): a key
longer than a block is first hashed, the key is zero-padded to a block,
and the digest is `hash(opadKey ++ hash(ipadKey ++ msg))`. -/
def hmac (hash : List Nat → List Nat) (key msg : List Nat) : List Nat :=
  let k0 := if 64 < key.length then hash key else key
  let kp := k0 ++ List.replicate (64 - k0.length) 0
  hash ((kp.map (· ^^^ 92)) ++ hash ((kp.map (· ^^^ 54)) ++ msg))

/-- UTF-8 encoding of a Unicode scalar value. -/
def utf8EncodeCp (n : Nat) : List Nat :=
  if n < 128 then [n]
  else if n < 2048 then [192 + n / 64, 128 + n % 64]
  else if n < 65536 then
    [224 + n / 4096, 128 + n / 64 % 64, 128 + n % 64]
  else [240 + n / 262144, 128 + n / 4096 % 64, 128 + n / 64 % 64,
        128 + n % 64]

/-- UTF-8 bytes of a string: the model of TextEncoder, i.e. of
`fromString(s, 'utf-8')` and `fromString(s)` from `uint8arrays`. -/
def strBytes (s : String) : List Nat :=
  s.toList.flatMap (fun c => utf8EncodeCp c.toNat)

/-- Test for a UTF-8 continuation byte (0x80–0xBF). -/
def isContB (b : Nat) : Bool :=
  decide (128 ≤ b) && decide (b < 192)

/-- Valid second bytes of a 3-byte sequence: leads 0xE0 and 0xED restrict
the range (excluding overlong forms and surrogates), other leads take any
continuation byte. -/
def isCont3B (b b1 : Nat) : Bool :=
  if b = 224 then decide (160 ≤ b1) && decide (b1 < 192)
  else if b = 237 then decide (128 ≤ b1) && decide (b1 < 160)
  else isContB b1

/-- Valid second bytes of a 4-byte sequence: leads 0xF0 and 0xF4 restrict
the range (excluding overlong forms and code points above U+10FFFF). -/
def isCont4B (b b1 : Nat) : Bool :=
  if b = 240 then decide (144 ≤ b1) && decide (b1 < 192)
  else if b = 244 then decide (128 ≤ b1) && decide (b1 < 144)
  else isContB b1

/-- Decode one scalar value from a UTF-8 byte stream, returning the code
point and the number of bytes consumed (always at least 1).  Malformed
sequences yield the replacement character U+FFFD and consume their
maximal valid prefix, as TextDecoder does in its default non-fatal mode.
Only the behaviour on well-formed streams matters below; the library
never feeds a malformed stream to a claim-relevant path. -/
def utf8DecodeOne : List Nat → Nat × Nat
  | [] => (65533, 1)
  | b :: bs =>
    if b < 128 then (b, 1)
    else if b < 194 then (65533, 1)
    else if b < 224 then
      match bs with
      | b1 :: _ =>
          if isContB b1 then ((b - 192) * 64 + (b1 - 128), 2)
          else (65533, 1)
      | [] => (65533, 1)
    else if b < 240 then
      match bs with
      | b1 :: b2 :: _ =>
          if isCont3B b b1 then
            if isContB b2 then
              ((b - 224) * 4096 + (b1 - 128) * 64 + (b2 - 128), 3)
            else (65533, 2)
          else (65533, 1)
      | [b1] => if isCont3B b b1 then (65533, 2) else (65533, 1)
      | [] => (65533, 1)
    else if b < 245 then
      match bs with
      | b1 :: b2 :: b3 :: _ =>
          if isCont4B b b1 then
            if isContB b2 then
              if isContB b3 then
                ((b - 240) * 262144 + (b1 - 128) * 4096 +
                  (b2 - 128) * 64 + (b3 - 128), 4)
              else (65533, 3)
            else (65533, 2)
          else (65533, 1)
      | [b1, b2] =>
          if isCont4B b b1 then
            if isContB b2 then (65533, 3) else (65533, 2)
          else (65533, 1)
      | [b1] => if isCont4B b b1 then (65533, 2) else (65533, 1)
      | [] => (65533, 1)
    else (65533, 1)

/-- Decode a UTF-8 byte stream into code points; structural recursion on
fuel (each step consumes at least one byte, so the byte count is enough
fuel). -/
def utf8DecodeGo : Nat → List Nat → List Nat
  | 0, _ => []
  | _, [] => []
  | fuel + 1, b :: bs =>
      let r := utf8DecodeOne (b :: bs)
      r.1 :: utf8DecodeGo fuel ((b :: bs).drop r.2)

/-- Decode a UTF-8 byte stream into code points. -/
def utf8Decode (bytes : List Nat) : List Nat :=
  utf8DecodeGo bytes.length bytes

/-- Conversion of decoded code points into a string; the decoder emits
only valid scalar values or U+FFFD, both represented exactly by
`Char.ofNat`. -/
def cpsToString (cps : List Nat) : String :=
  String.mk (cps.map Char.ofNat)

/-- Model of TextDecoder, i.e. of `toString(arr, 'utf-8')`. -/
def utf8DecodeStr (bytes : List Nat) : String :=
  cpsToString (utf8Decode bytes)

/-- Character of the standard base64 alphabet for a 6-bit value. -/
def b64Char (n : Nat) : Char :=
  if n < 26 then Char.ofNat (65 + n)
  else if n < 52 then Char.ofNat (71 + n)
  else if n < 62 then Char.ofNat (n - 4)
  else if n = 62 then '+'
  else '/'

/-- Inverse of the standard base64 alphabet. -/
def b64CharVal (c : Char) : Option Nat :=
  if 65 ≤ c.toNat ∧ c.toNat ≤ 90 then some (c.toNat - 65)
  else if 97 ≤ c.toNat ∧ c.toNat ≤ 122 then some (c.toNat - 71)
  else if 48 ≤ c.toNat ∧ c.toNat ≤ 57 then some (c.toNat + 4)
  else if c = '+' then some 62
  else if c = '/' then some 63
  else none

/-- Standard-alphabet base64 encoding without padding.  This is the
`'base64'` codec of multiformats as used by `uint8arrays`' `toString`:
standard alphabet (with `+` and `/`), and no `=` padding because the
codec's alphabet carries no padding character. -/
def b64EncodeCore : List Nat → List Char
  | [] => []
  | [b1] => [b64Char (b1 / 4), b64Char (b1 % 4 * 16)]
  | [b1, b2] =>
      [b64Char (b1 / 4), b64Char (b1 % 4 * 16 + b2 / 16),
       b64Char (b2 % 16 * 4)]
  | b1 :: b2 :: b3 :: rest =>
      b64Char (b1 / 4) :: b64Char (b1 % 4 * 16 + b2 / 16) ::
      b64Char (b2 % 16 * 4 + b3 / 64) :: b64Char (b3 % 64) ::
      b64EncodeCore rest

/-- Base64 encoding with `=` padding to a multiple of 4 characters, as
node's `Buffer.toString('base64')` produces for digests. -/
def b64EncodePadded (bs : List Nat) : List Char :=
  b64EncodeCore bs ++
    List.replicate ((4 - (b64EncodeCore bs).length % 4) % 4) '='

/-- Decoding of the multiformats rfc4648 bit loop: besides mapping
characters back through the alphabet, it rejects a leftover of 6 or more
bits (length 1 mod 4) and any nonzero leftover bits, exactly as the
`Unexpected end of data` check in the multiformats decoder does. -/
def b64DecodeCore : List Char → Option (List Nat)
  | [] => some []
  | [_] => none
  | [c1, c2] => do
      let v1 ← b64CharVal c1
      let v2 ← b64CharVal c2
      if v2 % 16 = 0 then pure [v1 * 4 + v2 / 16] else none
  | [c1, c2, c3] => do
      let v1 ← b64CharVal c1
      let v2 ← b64CharVal c2
      let v3 ← b64CharVal c3
      if v3 % 4 = 0 then
        pure [(v1 * 4 + v2 / 16), (v2 % 16 * 16 + v3 / 4)]
      else none
  | c1 :: c2 :: c3 :: c4 :: rest => do
      let v1 ← b64CharVal c1
      let v2 ← b64CharVal c2
      let v3 ← b64CharVal c3
      let v4 ← b64CharVal c4
      let tl ← b64DecodeCore rest
      pure ((v1 * 4 + v2 / 16) :: (v2 % 16 * 16 + v3 / 4) ::
            (v3 % 4 * 64 + v4) :: tl)

/-- Removal of trailing `=` characters, which the multiformats decoder
strips before decoding. -/
def dropTrailingEq (cs : List Char) : List Char :=
  (cs.reverse.dropWhile (fun c => c == '=')).reverse

/-- Base64 decoding of a string, the model of `fromString(s, 'base64')`
from `uint8arrays`; `none` models the thrown `SyntaxError`. -/
def b64Decode (s : String) : Option (List Nat) :=
  b64DecodeCore (dropTrailingEq s.toList)

/-- Replacement performed by the `.replace(/\/|\+|=/g, ...)` in both
variants' `sign`: `/` becomes `_`, `+` becomes `-`, `=` is removed, all
other characters are kept. -/
def urlSafeChar (c : Char) : List Char :=
  if c = '/' then ['_']
  else if c = '+' then ['-']
  else if c = '=' then []
  else [c]

/-- Rewriting of a base64 string into the URL/cookie-safe alphabet. -/
def urlSafe (cs : List Char) : List Char :=
  cs.flatMap urlSafeChar

/-- UTF-16 code units of a character: one unit below 0x10000, otherwise
the surrogate pair.  JavaScript strings are UTF-16, and the default
`Array.sort` comparator orders strings by these units. -/
def utf16Char (c : Char) : List Nat :=
  if c.toNat < 65536 then [c.toNat]
  else [55296 + (c.toNat - 65536) / 1024, 56320 + (c.toNat - 65536) % 1024]

/-- UTF-16 code units of a string. -/
def utf16Units (s : String) : List Nat := s.toList.flatMap utf16Char

/-- Boolean lexicographic order on code-unit lists. -/
def lexLe : List Nat → List Nat → Bool
  | [], _ => true
  | _ :: _, [] => false
  | a :: as, b :: bs =>
      if a < b then true else if b < a then false else lexLe as bs

/-- Comparator that sorts object keys: the model of the
`Object.keys(obj).sort()` inside `json-canon`, i.e. ascending UTF-16
code-unit order on the keys. -/
def keyLe (p q : String × String) : Prop :=
  lexLe (utf16Units p.1) (utf16Units q.1) = true

instance : DecidableRel keyLe := fun _ _ => Bool.decEq _ _

/-- Sorted key-value pairs: the model of sorting the object's keys before
serialization.  Insertion sort is used as an executable model of
`Array.sort`; for the duplicate-free key lists that model JavaScript
objects the result is uniquely determined by the order, so the choice of
algorithm is immaterial. -/
def sortPairs (d : List (String × String)) : List (String × String) :=
  List.insertionSort keyLe d

/-- Opening brace character, written via its code point. -/
def lbrace : Char := Char.ofNat 123

/-- Closing brace character, written via its code point. -/
def rbrace : Char := Char.ofNat 125

/-- Lowercase hexadecimal digit. -/
def hexDigit (n : Nat) : Char :=
  if n < 10 then Char.ofNat (48 + n) else Char.ofNat (87 + n)

/-- Escaping performed by `JSON.stringify` (which `json-canon` uses for
string values): quote, backslash, the named control escapes, and
`\u00XX` for remaining control characters; everything else is literal. -/
def jsonEscapeChar (c : Char) : List Char :=
  if c = '"' then ['\\', '"']
  else if c = '\\' then ['\\', '\\']
  else if c.toNat = 8 then ['\\', 'b']
  else if c.toNat = 9 then ['\\', 't']
  else if c.toNat = 10 then ['\\', 'n']
  else if c.toNat = 12 then ['\\', 'f']
  else if c.toNat = 13 then ['\\', 'r']
  else if c.toNat < 32 then
    ['\\', 'u', '0', '0', hexDigit (c.toNat / 16), hexDigit (c.toNat % 16)]
  else [c]

/-- JSON string literal for a string value. -/
def jsonQuote (s : String) : List Char :=
  '"' :: s.toList.flatMap jsonEscapeChar ++ ['"']

/-- Serialization of one key-value pair. -/
def serializePair (p : String × String) : List Char :=
  jsonQuote p.1 ++ ':' :: jsonQuote p.2

/-- Session data: the `Record<string, string>` consumed by
`createSession`, modelled as a key-value list; JavaScript objects cannot
hold duplicate keys, which theorems express as a `Nodup` hypothesis on
the mapped keys where it matters. -/
abbrev SessionData := List (String × String)

/-- Canonical JSON serialization of a string-valued object: the model of
`json-canon`'s `stringify` (RFC 8785) restricted to the argument type of
`createSession` — keys sorted by UTF-16 code units, `JSON.stringify`
string escaping, no whitespace. -/
def stringify (d : SessionData) : String :=
  String.mk
    (lbrace :: List.intercalate [','] ((sortPairs d).map serializePair)
      ++ [rbrace])

/-- Name used for the session cookie if none is provided (both variants). -/
def SESSION_COOKIE_NAME_DEFAULT : String := "session"

/-- Length of the signature digest, in characters, used by the
synchronous variant to separate signature from data in the raw session
cookie. -/
def SIGNATURE_DIGEST_LENGTH : Nat := 27

/-- Length of the signature digest used by the asynchronous variant. -/
def SIGNATURE_DIGEST_LENGTH_ASYNC : Nat := 43

/-- Algorithm selector of the synchronous `sign` (its `opts.algorithm`
field).  The `sha512` option of the source is not modelled: no claim
selects it, and modelling it would require an otherwise unused SHA-512
embedding. -/
inductive SyncAlg
  | sha1Alg
  | sha256Alg
deriving DecidableEq

/-- Digest function selected by a `SyncAlg`. -/
def syncHash : SyncAlg → List Nat → List Nat
  | .sha1Alg => sha1
  | .sha256Alg => sha256

/-- Model of the synchronous `sign` from `src/index.ts` (lines 168-181):
`crypto.createHmac(algorithm, key).update(data).digest('base64')` with
the default `algorithm = opts?.algorithm || 'sha1'`, followed by the
URL-safe rewriting.  Node treats string keys and data as UTF-8 bytes and
its `'base64'` digest encoding is padded; the `encoding` option is left
at its `'base64'` default as in every call site. -/
def signAlgo (data key : String) (alg : Option SyncAlg) : String :=
  let algorithm := alg.getD .sha1Alg
  String.mk (urlSafe
    (b64EncodePadded (hmac (syncHash algorithm) (strBytes key)
      (strBytes data))))

/-- Synchronous `sign` as called by `createSession` and `verify`: no
options object, hence the default algorithm. -/
def sign (data key : String) : String := signAlgo data key none

/-- Model of the synchronous `createSession` (lines 108-121): canonical
JSON of the data, unpadded base64 of its UTF-8 bytes, and the signature
prepended with no delimiter. -/
def createSession (newSessionData : SessionData) (secretKey : String) :
    String :=
  let sessionAsJSON := stringify newSessionData
  let base64Json := String.mk (b64EncodeCore (strBytes sessionAsJSON))
  sign sessionAsJSON secretKey ++ base64Json

/-- Model of `bufferEqual` from `src/util.ts`: a length check followed by
`crypto.timingSafeEqual` (or the byte loop), both of which decide byte
equality. -/
def bufferEqual (a b : List Nat) : Bool :=
  if a.length != b.length then false else a == b

/-- Model of the synchronous `timeSafeCompare` from `src/util.ts` (lines
24-52), Brad Hill's double-HMAC pattern: both inputs are HMAC-SHA256ed
under a fresh random key and the digests compared, and the result is
additionally conjoined with `a === b`.  The random key `rk` drawn by
`crypto.randomBytes(32)` is passed explicitly. -/
def timeSafeCompare (rk : List Nat) (a b : String) : Bool :=
  bufferEqual (hmac sha256 rk (strBytes a)) (hmac sha256 rk (strBytes b))
    && a == b

/-- Model of the synchronous `verify` (lines 155-161). -/
def verify (rk : List Nat) (key data signature : String) : Bool :=
  timeSafeCompare rk signature (sign data key)

/-- Body of the `try` block of the synchronous `verifySessionString`
(lines 129-145): split at the fixed signature length, base64-decode the
payload (a thrown decode error becomes `Except.error`), decode the bytes
as UTF-8 and recompute the signature. -/
def verifyPipeline (rk : List Nat) (session key : String) :
    Except Unit Bool :=
  let signature := String.mk (session.toList.take SIGNATURE_DIGEST_LENGTH)
  match b64Decode (String.mk (session.toList.drop SIGNATURE_DIGEST_LENGTH))
    with
  | none => .error ()
  | some arr => .ok (verify rk key (utf8DecodeStr arr) signature)

/-- Model of the synchronous `verifySessionString`: the `catch` clause
maps any error from the pipeline to `false`. -/
def verifySessionString (rk : List Nat) (session key : String) : Bool :=
  match verifyPipeline rk session key with
  | .ok b => b
  | .error _ => false

/-- Value of a hexadecimal digit character. -/
def hexVal (c : Char) : Option Nat :=
  if 48 ≤ c.toNat ∧ c.toNat ≤ 57 then some (c.toNat - 48)
  else if 97 ≤ c.toNat ∧ c.toNat ≤ 102 then some (c.toNat - 87)
  else if 65 ≤ c.toNat ∧ c.toNat ≤ 70 then some (c.toNat - 55)
  else none

/-- Decoding of one JSON escape (the character after a backslash),
returning the decoded character and the remaining input.  Surrogate-pair
`\u` escapes are not modelled: the serializer below only emits `\u00XX`
escapes, and no claim exercises others. -/
def parseJEscape (e : Char) (cs1 : List Char) : Option (Char × List Char) :=
  if e = '"' then some ('"', cs1)
  else if e = '\\' then some ('\\', cs1)
  else if e = '/' then some ('/', cs1)
  else if e = 'b' then some (Char.ofNat 8, cs1)
  else if e = 't' then some (Char.ofNat 9, cs1)
  else if e = 'n' then some (Char.ofNat 10, cs1)
  else if e = 'f' then some (Char.ofNat 12, cs1)
  else if e = 'r' then some (Char.ofNat 13, cs1)
  else if e = 'u' then
    match cs1 with
    | h1 :: h2 :: h3 :: h4 :: cs2 => do
        let v1 ← hexVal h1
        let v2 ← hexVal h2
        let v3 ← hexVal h3
        let v4 ← hexVal h4
        if v1 * 4096 + v2 * 256 + v3 * 16 + v4 < 55296 then
          some (Char.ofNat (v1 * 4096 + v2 * 256 + v3 * 16 + v4), cs2)
        else none
    | _ => none
  else none

/-- Body of a JSON string literal parser (after the opening quote):
returns the decoded string and the input remaining after the closing
quote.  Fuel is structural; each step consumes at least one character. -/
def parseJStringGo : Nat → List Char → List Char →
    Option (String × List Char)
  | 0, _, _ => none
  | _, _, [] => none
  | fuel + 1, acc, c :: cs =>
    if c = '"' then some (String.mk acc.reverse, cs)
    else if c = '\\' then
      match cs with
      | [] => none
      | e :: cs1 =>
          match parseJEscape e cs1 with
          | some dr => parseJStringGo fuel (dr.1 :: acc) dr.2
          | none => none
    else parseJStringGo fuel (c :: acc) cs

/-- Parser for one JSON string literal. -/
def parseJString (cs : List Char) : Option (String × List Char) :=
  match cs with
  | [] => none
  | c :: cs1 => if c = '"' then parseJStringGo cs1.length [] cs1 else none

/-- Parser for a nonempty `"k":"v"` pair sequence terminated by the
closing brace at the end of input. -/
def parseJPairsGo : Nat → List Char → Option SessionData
  | 0, _ => none
  | fuel + 1, cs => do
      let kr ← parseJString cs
      match kr.2 with
      | [] => none
      | c :: cs2 =>
        if c = ':' then do
          let vr ← parseJString cs2
          match vr.2 with
          | [] => none
          | d :: cs4 =>
            if d = ',' then do
              let tl ← parseJPairsGo fuel cs4
              pure ((kr.1, vr.1) :: tl)
            else if d = rbrace ∧ cs4 = [] then pure [(kr.1, vr.1)]
            else none
        else none

/-- Restricted model of `JSON.parse`, covering exactly the
object-of-strings grammar that `stringify` (and hence `createSession`)
produces: an object whose keys and values are JSON string literals,
without whitespace.  `none` models both a thrown `SyntaxError` and any
result of a shape other than a string-valued object. -/
def jsonParseObj (s : String) : Option SessionData :=
  match s.toList with
  | [] => none
  | c :: cs =>
      if c = lbrace then
        if cs = [rbrace] then some []
        else parseJPairsGo cs.length cs
      else none

/-- Model of the synchronous `parseSession` (lines 188-198): drop the
fixed-length signature, base64-decode the payload, UTF-8-decode the
bytes, `JSON.parse` the text.  Errors propagate (there is no catch),
modelled by `Option`. -/
def parseSession (encodedSession : String) : Option SessionData := do
  let arr ← b64Decode
    (String.mk (encodedSession.toList.drop SIGNATURE_DIGEST_LENGTH))
  jsonParseObj (utf8DecodeStr arr)

/-- Model of the asynchronous `sign` (lines 400-428): the key string is
base64-decoded (`fromString(key, 'base64')`, whose thrown decode error
on an invalid key is modelled by `none`), imported as a raw HMAC-SHA-256
key, the data signed, and the digest encoded with the unpadded
multiformats base64 and rewritten URL-safe.  The `sha-512` algorithm
option is not modelled: no call site or claim selects it. -/
def signAsync (data key : String) : Option String :=
  match b64Decode key with
  | none => none
  | some keyBytes =>
      some (String.mk (urlSafe (b64EncodeCore
        (hmac sha256 keyBytes (strBytes data)))))

/-- Model of the asynchronous `createSession` (lines 334-348). -/
def createSessionAsync (newSessionData : SessionData)
    (secretKey : String) : Option String := do
  let sig ← signAsync (stringify newSessionData) secretKey
  pure (sig ++ String.mk (b64EncodeCore (strBytes
    (stringify newSessionData))))

/-- Model of the asynchronous `timeSafeCompare` (part_000, lines 25-45):
an HMAC-SHA-256 of `a` under a freshly generated key `rk` is checked
against `b` by `webcrypto.subtle.verify`, which recomputes the HMAC over
`b` and compares digests.  Unlike the synchronous variant there is no
final `a === b` conjunct. -/
def timeSafeCompareAsync (rk : List Nat) (a b : String) : Bool :=
  hmac sha256 rk (strBytes a) == hmac sha256 rk (strBytes b)

/-- Model of the asynchronous `verify` (lines 384-393). -/
def verifyAsync (rk : List Nat) (key data signature : String) :
    Option Bool := do
  let sig ← signAsync data key
  pure (timeSafeCompareAsync rk signature sig)

/-- Body of the `try` block of the asynchronous `verifySessionString`
(lines 356-374); both a payload decode error and a key decode error
inside `sign` are raised inside the `try`. -/
def verifyPipelineAsync (rk : List Nat) (session key : String) :
    Except Unit Bool :=
  let signature :=
    String.mk (session.toList.take SIGNATURE_DIGEST_LENGTH_ASYNC)
  match b64Decode
    (String.mk (session.toList.drop SIGNATURE_DIGEST_LENGTH_ASYNC)) with
  | none => .error ()
  | some arr =>
      match verifyAsync rk key (utf8DecodeStr arr) signature with
      | none => .error ()
      | some b => .ok b

/-- Model of the asynchronous `verifySessionString`: the catch clause
maps any error from the pipeline to `false`. -/
def verifySessionStringAsync (rk : List Nat) (session key : String) :
    Bool :=
  match verifyPipelineAsync rk session key with
  | .ok b => b
  | .error _ => false

/-- Model of the asynchronous `parseSession` (lines 435-445). -/
def parseSessionAsync (encodedSession : String) : Option SessionData := do
  let arr ← b64Decode
    (String.mk (encodedSession.toList.drop SIGNATURE_DIGEST_LENGTH_ASYNC))
  jsonParseObj (utf8DecodeStr arr)

/-- Value stored in a parsed cookie mapping: either a string, or the
boolean `true` that a valueless attribute receives through `?? true`. -/
inductive CookieVal
  | str (s : String)
  | flag
deriving DecidableEq

/-- Model of `tryDecode` (lines 55-61) on a present value: a decoding
function that throws (modelled by `none`) yields the input unchanged. -/
def tryDecode (str : String) (dec : String → Option String) : String :=
  (dec str).getD str

/-- Split of a character list at every occurrence of a separator
character: the model of JavaScript `String.split` with a one-character
separator. -/
def splitOnChar (sep : Char) : List Char → List Char → List (List Char)
  | acc, [] => [acc.reverse]
  | acc, c :: cs =>
      if c = sep then acc.reverse :: splitOnChar sep [] cs
      else splitOnChar sep (c :: acc) cs

/-- Removal of leading and trailing whitespace: the model of JavaScript
`String.trim` (ASCII whitespace; the further Unicode space characters
JavaScript also trims do not occur in any claim). -/
def trimChars (cs : List Char) : List Char :=
  ((cs.dropWhile Char.isWhitespace).reverse.dropWhile
    Char.isWhitespace).reverse

/-- Items of a cookie string: split on `;`, trim each piece, split it on
`=`. -/
def cookieItems (cookie : String) : List (List String) :=
  (splitOnChar ';' [] cookie.toList).map
    (fun str => (splitOnChar '=' [] (trimChars str)).map String.mk)

/-- One step of the `reduce` in `parseCookie`:
`acc[val[0]] = tryDecode(val[1], dec) ?? true`, on the object modelled as
a lookup function. -/
def cookieStep (dec : String → Option String)
    (acc : String → Option CookieVal) (val : List String) :
    String → Option CookieVal :=
  fun k =>
    if k = val.headD "" then
      some (match val[1]? with
        | some v => .str (tryDecode v dec)
        | none => .flag)
    else acc k

/-- Model of `parseCookie` (lines 30-44), with the decode function
abstracted as `dec` acting on present values.  When an item has no `=`,
`val[1]` is `undefined`, the default `decode` throws on it, `tryDecode`
returns the `undefined` back and `?? true` stores the boolean `true`;
that branch is therefore modelled directly as `CookieVal.flag`.  The
returned mapping is the lookup function of the accumulated object,
seeded with `session ↦ ""`. -/
def parseCookie (cookie : String) (dec : String → Option String) :
    String → Option CookieVal :=
  (cookieItems cookie).foldl (cookieStep dec)
    (fun k => if k = "session" then some (.str "") else none)

/-- Strict key order: the antisymmetric relation underlying the
canonical-order argument. -/
def keyLt (p q : String × String) : Prop := keyLe p q ∧ p.1 ≠ q.1

/-- Condition under which the asynchronous comparison of a stored
signature against the one recomputed under key `k2` comes out unequal:
if `sign` under `k2` throws the whole verification fails anyway, and
otherwise the ephemeral-key HMAC digests of the two signature strings
must differ (the asynchronous comparator checks digest equality only). -/
def asyncSigDiffers (rk : List Nat) (sig1 : String) (d : SessionData)
    (k2 : String) : Bool :=
  match signAsync (stringify d) k2 with
  | none => true
  | some s2 =>
      hmac sha256 rk (strBytes sig1) != hmac sha256 rk (strBytes s2)

/-- The HMAC-SHA-256 digest of a string under the ephemeral key `rk`,
packaged as a function into the finite type `Fin 32 → Fin 256`: the
digest has 32 bytes, each below 256, so the asynchronous comparator
factors through this finite codomain. -/
def hmacDigestFn (rk : List Nat) (s : String) : Fin 32 → Fin 256 :=
  fun i => ⟨(hmac sha256 rk (strBytes s)).getD i 0 % 256,
    Nat.mod_lt _ (by norm_num)⟩

theorem sha1_length (msg : List Nat) : (sha1 msg).length = 20 := by
  unfold sha1
  rcases hst : (chunk64 (shaPad msg)).foldl sha1Block sha1Init with
    ⟨a, b, c, d, e⟩
  simp [sha1Out, be32]

theorem sha256_length (msg : List Nat) : (sha256 msg).length = 32 := by
  unfold sha256
  rcases hst : (chunk64 (shaPad msg)).foldl sha256Block sha256Init with
    ⟨a, b, c, d, e, f, g, h⟩
  simp [sha256Out, be32]

theorem hmac_sha1_length (key msg : List Nat) :
    (hmac sha1 key msg).length = 20 := by
  unfold hmac
  exact sha1_length _

theorem hmac_sha256_length (key msg : List Nat) :
    (hmac sha256 key msg).length = 32 := by
  unfold hmac
  exact sha256_length _

theorem utf8EncodeCp_length_pos (n : Nat) : 1 ≤ (utf8EncodeCp n).length := by
  unfold utf8EncodeCp
  split_ifs <;> simp

theorem utf8EncodeCp_lt_256 (n : Nat) (hn : n < 1114112) :
    ∀ b ∈ utf8EncodeCp n, b < 256 := by
  unfold utf8EncodeCp
  split_ifs with h1 h2 h3 <;> simp <;> omega

theorem utf8DecodeOne_encode (c : Char) (rest : List Nat) :
    utf8DecodeOne (utf8EncodeCp c.toNat ++ rest) =
      (c.toNat, (utf8EncodeCp c.toNat).length) := by
  have hv : c.toNat < 55296 ∨ (57343 < c.toNat ∧ c.toNat < 1114112) :=
    c.valid
  set n := c.toNat with hn
  by_cases h1 : n < 128
  · simp [utf8EncodeCp, utf8DecodeOne, h1]
  · by_cases h2 : n < 2048
    · have hb : ¬(192 + n / 64 < 128) := by omega
      have hb' : ¬(192 + n / 64 < 194) := by omega
      have hb'' : 192 + n / 64 < 224 := by omega
      simp only [utf8EncodeCp, if_neg h1, if_pos h2, List.cons_append,
        List.nil_append, utf8DecodeOne, if_neg hb, if_neg hb', if_pos hb'']
      have hc : isContB (128 + n % 64) = true := by
        simp [isContB]
        omega
      simp [hc]
      omega
    · by_cases h3 : n < 65536
      · have hb : ¬(224 + n / 4096 < 128) := by omega
        have hb' : ¬(224 + n / 4096 < 194) := by omega
        have hb'' : ¬(224 + n / 4096 < 224) := by omega
        have hb''' : 224 + n / 4096 < 240 := by omega
        simp only [utf8EncodeCp, if_neg h1, if_neg h2, if_pos h3,
          List.cons_append, List.nil_append, utf8DecodeOne, if_neg hb,
          if_neg hb', if_neg hb'', if_pos hb''']
        have hc1 : isCont3B (224 + n / 4096) (128 + n / 64 % 64) = true := by
          simp only [isCont3B, isContB]
          split_ifs with he he' <;> simp <;> omega
        have hc2 : isContB (128 + n % 64) = true := by
          simp [isContB]
          omega
        simp [hc1, hc2]
        omega
      · have hb : ¬(240 + n / 262144 < 128) := by omega
        have hb' : ¬(240 + n / 262144 < 194) := by omega
        have hb'' : ¬(240 + n / 262144 < 224) := by omega
        have hb''' : ¬(240 + n / 262144 < 240) := by omega
        have hb4 : 240 + n / 262144 < 245 := by omega
        simp only [utf8EncodeCp, if_neg h1, if_neg h2, if_neg h3,
          List.cons_append, List.nil_append, utf8DecodeOne, if_neg hb,
          if_neg hb', if_neg hb'', if_neg hb''', if_pos hb4]
        have hc1 : isCont4B (240 + n / 262144) (128 + n / 4096 % 64)
            = true := by
          simp only [isCont4B, isContB]
          split_ifs with he he' <;> simp <;> omega
        have hc2 : isContB (128 + n / 64 % 64) = true := by
          simp [isContB]
          omega
        have hc3 : isContB (128 + n % 64) = true := by
          simp [isContB]
          omega
        simp [hc1, hc2, hc3]
        omega

theorem utf8DecodeGo_encode (l : List Char) :
    ∀ fuel : Nat,
      (l.flatMap (fun c => utf8EncodeCp c.toNat)).length ≤ fuel →
      utf8DecodeGo fuel (l.flatMap (fun c => utf8EncodeCp c.toNat)) =
        l.map Char.toNat := by
  induction l with
  | nil =>
      intro fuel _
      cases fuel <;> simp [utf8DecodeGo]
  | cons c l ih =>
      intro fuel hfuel
      have hpos := utf8EncodeCp_length_pos c.toNat
      rcases henc : utf8EncodeCp c.toNat with _ | ⟨b, ebs⟩
      · rw [henc] at hpos
        simp at hpos
      · simp only [List.flatMap_cons, henc, List.cons_append] at hfuel ⊢
        rcases fuel with _ | fuel
        · simp at hfuel
        · have hone := utf8DecodeOne_encode c
            (l.flatMap (fun c => utf8EncodeCp c.toNat))
        
          rw [henc] at hone
          simp only [List.cons_append] at hone
          simp only [utf8DecodeGo, hone]
          have hdrop : ((b :: (ebs ++ l.flatMap (fun c =>
              utf8EncodeCp c.toNat))).drop (b :: ebs).length) =
              l.flatMap (fun c => utf8EncodeCp c.toNat) := by
            have : b :: (ebs ++ l.flatMap (fun c => utf8EncodeCp c.toNat)) =
                (b :: ebs) ++ l.flatMap (fun c => utf8EncodeCp c.toNat) := by
              simp
            rw [this, List.drop_left]
          rw [hdrop, ih fuel (by simp at hfuel ⊢; omega)]
          simp

theorem utf8Decode_strBytes (s : String) :
    utf8Decode (strBytes s) = s.toList.map Char.toNat := by
  unfold utf8Decode strBytes
  exact utf8DecodeGo_encode s.toList _ le_rfl

theorem utf8DecodeStr_strBytes (s : String) :
    utf8DecodeStr (strBytes s) = s := by
  unfold utf8DecodeStr cpsToString
  rw [utf8Decode_strBytes, List.map_map]
  have hcomp : Char.ofNat ∘ Char.toNat = id :=
    funext fun c => Char.ofNat_toNat c
  rw [hcomp, List.map_id]
  cases s
  rfl

theorem b64CharVal_b64Char : ∀ n, n < 64 → b64CharVal (b64Char n) = some n := by
  decide

theorem b64Char_ne_eq : ∀ n, n < 64 → b64Char n ≠ '=' := by
  decide

theorem b64EncodeCore_mem (bs : List Nat) (hb : ∀ b ∈ bs, b < 256) :
    ∀ c ∈ b64EncodeCore bs, ∃ n, n < 64 ∧ c = b64Char n := by
  induction bs using b64EncodeCore.induct with
  | case1 => simp [b64EncodeCore]
  | case2 b1 =>
      have h1 := hb b1 (by simp)
      simp only [b64EncodeCore, List.mem_cons, List.not_mem_nil, or_false,
        List.mem_singleton]
      rintro c (rfl | rfl)
      · exact ⟨b1 / 4, by omega, rfl⟩
      · exact ⟨b1 % 4 * 16, by omega, rfl⟩
  | case3 b1 b2 =>
      have h1 := hb b1 (by simp)
      have h2 := hb b2 (by simp)
      simp only [b64EncodeCore, List.mem_cons, List.not_mem_nil, or_false]
      rintro c (rfl | rfl | rfl)
      · exact ⟨b1 / 4, by omega, rfl⟩
      · exact ⟨b1 % 4 * 16 + b2 / 16, by omega, rfl⟩
      · exact ⟨b2 % 16 * 4, by omega, rfl⟩
  | case4 b1 b2 b3 rest ih =>
      have h1 := hb b1 (by simp)
      have h2 := hb b2 (by simp)
      have h3 := hb b3 (by simp)
      have hrest : ∀ b ∈ rest, b < 256 := fun b h => hb b (by simp [h])
      simp only [b64EncodeCore, List.mem_cons]
      rintro c (rfl | rfl | rfl | rfl | hc)
      · exact ⟨b1 / 4, by omega, rfl⟩
      · exact ⟨b1 % 4 * 16 + b2 / 16, by omega, rfl⟩
      · exact ⟨b2 % 16 * 4 + b3 / 64, by omega, rfl⟩
      · exact ⟨b3 % 64, by omega, rfl⟩
      · exact ih hrest c hc

theorem b64EncodeCore_ne_eq (bs : List Nat) (hb : ∀ b ∈ bs, b < 256) :
    ∀ c ∈ b64EncodeCore bs, c ≠ '=' := by
  intro c hc
  obtain ⟨n, hn, rfl⟩ := b64EncodeCore_mem bs hb c hc
  exact b64Char_ne_eq n hn

theorem b64DecodeCore_encode (bs : List Nat) (hb : ∀ b ∈ bs, b < 256) :
    b64DecodeCore (b64EncodeCore bs) = some bs := by
  induction bs using b64EncodeCore.induct with
  | case1 => rfl
  | case2 b1 =>
      have h1 := hb b1 (by simp)
      have e1 := b64CharVal_b64Char (b1 / 4) (by omega)
      have e2 := b64CharVal_b64Char (b1 % 4 * 16) (by omega)
      simp only [b64EncodeCore, b64DecodeCore, e1, e2, Option.bind_some]
      have : b1 % 4 * 16 % 16 = 0 := by omega
      simp [bind, this]
      omega
  | case3 b1 b2 =>
      have h1 := hb b1 (by simp)
      have h2 := hb b2 (by simp)
      have e1 := b64CharVal_b64Char (b1 / 4) (by omega)
      have e2 := b64CharVal_b64Char (b1 % 4 * 16 + b2 / 16) (by omega)
      have e3 := b64CharVal_b64Char (b2 % 16 * 4) (by omega)
      simp only [b64EncodeCore, b64DecodeCore, e1, e2, e3, Option.bind_some]
      have : b2 % 16 * 4 % 4 = 0 := by omega
      simp [bind, this]
      constructor <;> omega
  | case4 b1 b2 b3 rest ih =>
      have h1 := hb b1 (by simp)
      have h2 := hb b2 (by simp)
      have h3 := hb b3 (by simp)
      have hrest : ∀ b ∈ rest, b < 256 := fun b h => hb b (by simp [h])
      have e1 := b64CharVal_b64Char (b1 / 4) (by omega)
      have e2 := b64CharVal_b64Char (b1 % 4 * 16 + b2 / 16) (by omega)
      have e3 := b64CharVal_b64Char (b2 % 16 * 4 + b3 / 64) (by omega)
      have e4 := b64CharVal_b64Char (b3 % 64) (by omega)
      rcases henc : b64EncodeCore rest with _ | ⟨c, cs⟩ <;>
        rw [henc] at ih <;>
        simp only [b64EncodeCore, henc, b64DecodeCore, e1, e2, e3, e4,
          ih hrest, Option.bind_some, bind, Option.bind] <;>
        refine congrArg some ?_ <;>
        refine List.cons_eq_cons.mpr ⟨by omega, ?_⟩ <;>
        refine List.cons_eq_cons.mpr ⟨by omega, ?_⟩ <;>
        exact List.cons_eq_cons.mpr ⟨by omega, rfl⟩

theorem dropTrailingEq_of_ne (cs : List Char) (h : ∀ c ∈ cs, c ≠ '=') :
    dropTrailingEq cs = cs := by
  unfold dropTrailingEq
  have hself : cs.reverse.dropWhile (fun c => c == '=') = cs.reverse := by
    rcases hrev : cs.reverse with _ | ⟨a, as⟩
    · rfl
    · rw [List.dropWhile_cons_of_neg]
      have ha : a ∈ cs :=
        List.mem_reverse.mp (hrev ▸ List.mem_cons_self a as)
      simpa using h a ha
  rw [hself, List.reverse_reverse]

theorem b64Decode_encode (bs : List Nat) (hb : ∀ b ∈ bs, b < 256) :
    b64Decode (String.mk (b64EncodeCore bs)) = some bs := by
  unfold b64Decode
  have htl : (String.mk (b64EncodeCore bs)).toList = b64EncodeCore bs := rfl
  rw [htl, dropTrailingEq_of_ne _ (b64EncodeCore_ne_eq bs hb),
    b64DecodeCore_encode bs hb]

theorem b64EncodeCore_length (bs : List Nat) :
    (b64EncodeCore bs).length =
      bs.length / 3 * 4 +
        (if bs.length % 3 = 0 then 0 else bs.length % 3 + 1) := by
  induction bs using b64EncodeCore.induct with
  | case1 => simp [b64EncodeCore]
  | case2 b1 => simp [b64EncodeCore]
  | case3 b1 b2 => simp [b64EncodeCore]
  | case4 b1 b2 b3 rest ih =>
      simp only [b64EncodeCore, List.length_cons, ih]
      split_ifs <;> omega

theorem urlSafe_length (cs : List Char) (h : ∀ c ∈ cs, c ≠ '=') :
    (urlSafe cs).length = cs.length := by
  induction cs with
  | nil => rfl
  | cons c cs ih =>
      have hc := h c (by simp)
      have hcs : ∀ x ∈ cs, x ≠ '=' := fun x hx => h x (by simp [hx])
      simp only [urlSafe, List.flatMap_cons, List.length_append]
      rw [show (cs.flatMap urlSafeChar) = urlSafe cs from rfl, ih hcs]
      unfold urlSafeChar
      split_ifs <;> simp_all <;> omega

theorem urlSafe_safe (cs : List Char) :
    ∀ c ∈ urlSafe cs, c ≠ '/' ∧ c ≠ '+' ∧ c ≠ '=' := by
  induction cs with
  | nil => simp [urlSafe]
  | cons c cs ih =>
      intro x hx
      simp only [urlSafe, List.flatMap_cons, List.mem_append] at hx
      rcases hx with hx | hx
      · unfold urlSafeChar at hx
        split_ifs at hx <;> simp_all
      · exact ih x hx

theorem lexLe_total (a b : List Nat) : lexLe a b = true ∨ lexLe b a = true := by
  induction a generalizing b with
  | nil => left; rfl
  | cons x xs ih =>
      cases b with
      | nil => right; rfl
      | cons y ys =>
          by_cases hxy : x < y
          · left; simp [lexLe, hxy]
          · by_cases hyx : y < x
            · right; simp [lexLe, hyx, hxy]
            · have hx : ¬x < y := hxy
              rcases ih ys with h | h
              · left; simp [lexLe, hxy, hyx, h]
              · right; simp [lexLe, hxy, hyx, h]

theorem lexLe_trans (a b c : List Nat) (hab : lexLe a b = true)
    (hbc : lexLe b c = true) : lexLe a c = true := by
  induction a generalizing b c with
  | nil => rfl
  | cons x xs ih =>
      cases b with
      | nil => simp [lexLe] at hab
      | cons y ys =>
          cases c with
          | nil => simp [lexLe] at hbc
          | cons z zs =>
              simp only [lexLe] at hab hbc ⊢
              split_ifs at hab hbc ⊢ <;> try rfl
              all_goals try omega
              all_goals try simp_all
              exact ih ys zs hab hbc

theorem lexLe_antisymm (a b : List Nat) (hab : lexLe a b = true)
    (hba : lexLe b a = true) : a = b := by
  induction a generalizing b with
  | nil =>
      cases b with
      | nil => rfl
      | cons y ys => simp [lexLe] at hba
  | cons x xs ih =>
      cases b with
      | nil => simp [lexLe] at hab
      | cons y ys =>
          simp only [lexLe] at hab hba
          split_ifs at hab hba <;> try omega
          have : x = y := by omega
          subst this
          rw [ih ys hab hba]

instance : IsTotal (String × String) keyLe :=
  ⟨fun p q => lexLe_total (utf16Units p.1) (utf16Units q.1)⟩

instance : IsTrans (String × String) keyLe :=
  ⟨fun _ _ _ hab hbc => lexLe_trans _ _ _ hab hbc⟩

theorem charToNat_inj {a b : Char} (h : a.toNat = b.toNat) : a = b := by
  have ha := (Char.ofNat_toNat a).symm
  rw [ha, h, Char.ofNat_toNat]

theorem utf16Char_append_inj (c1 c2 : Char) (r1 r2 : List Nat)
    (h : utf16Char c1 ++ r1 = utf16Char c2 ++ r2) : c1 = c2 ∧ r1 = r2 := by
  have hv1 : c1.toNat < 55296 ∨ (57343 < c1.toNat ∧ c1.toNat < 1114112) :=
    c1.valid
  have hv2 : c2.toNat < 55296 ∨ (57343 < c2.toNat ∧ c2.toNat < 1114112) :=
    c2.valid
  unfold utf16Char at h
  by_cases h1 : c1.toNat < 65536 <;> by_cases h2 : c2.toNat < 65536 <;>
    simp only [h1, h2, if_true, if_false, List.cons_append, List.nil_append,
      if_pos, if_neg, List.cons.injEq] at h
  · exact ⟨charToNat_inj h.1, h.2⟩
  · exfalso
    rcases hv1 with hv1 | hv1 <;> rcases hv2 with hv2 | hv2 <;> omega
  · exfalso
    rcases hv1 with hv1 | hv1 <;> rcases hv2 with hv2 | hv2 <;> omega
  · have hhi := h.1
    have hr := h.2.2
    have hlo := h.2.1
    refine ⟨charToNat_inj ?_, hr⟩
    omega

theorem utf16Char_length_pos (c : Char) : 1 ≤ (utf16Char c).length := by
  unfold utf16Char
  split_ifs <;> simp

theorem utf16Units_inj_list :
    ∀ l1 l2 : List Char, l1.flatMap utf16Char = l2.flatMap utf16Char →
      l1 = l2 := by
  intro l1
  induction l1 with
  | nil =>
      intro l2 h
      cases l2 with
      | nil => rfl
      | cons c cs =>
          exfalso
          rcases hcc : utf16Char c with _ | ⟨u, us⟩
          · have := utf16Char_length_pos c
            rw [hcc] at this
            simp at this
          · rw [List.flatMap_cons, hcc] at h
            simp at h
  | cons c cs ih =>
      intro l2 h
      cases l2 with
      | nil =>
          exfalso
          rcases hcc : utf16Char c with _ | ⟨u, us⟩
          · have := utf16Char_length_pos c
            rw [hcc] at this
            simp at this
          · rw [List.flatMap_cons, hcc] at h
            simp at h
      | cons d ds =>
          simp only [List.flatMap_cons] at h
          obtain ⟨hc, hr⟩ := utf16Char_append_inj c d _ _ h
          rw [hc, ih ds hr]

theorem utf16Units_inj {s t : String} (h : utf16Units s = utf16Units t) :
    s = t := by
  have hl := utf16Units_inj_list s.toList t.toList h
  cases s with
  | mk d1 =>
      cases t with
      | mk d2 => exact congrArg String.mk hl

theorem timeSafeCompare_eq (rk : List Nat) (a b : String) :
    timeSafeCompare rk a b = (a == b) := by
  unfold timeSafeCompare bufferEqual
  rcases heq : a == b with _ | _
  · simp
  · have : a = b := by
      simpa using heq
    subst this
    simp

theorem be32_lt (n : Nat) : ∀ b ∈ be32 n, b < 256 := by
  intro b hb
  simp only [be32, List.mem_cons, List.not_mem_nil, or_false] at hb
  rcases hb with rfl | rfl | rfl | rfl <;> omega

theorem sha1_bytes_lt (msg : List Nat) : ∀ b ∈ sha1 msg, b < 256 := by
  unfold sha1
  rcases hst : (chunk64 (shaPad msg)).foldl sha1Block sha1Init with
    ⟨a, b, c, d, e⟩
  intro x hx
  simp only [sha1Out, List.mem_append] at hx
  rcases hx with (((hx | hx) | hx) | hx) | hx <;> exact be32_lt _ x hx

theorem sha256_bytes_lt (msg : List Nat) : ∀ b ∈ sha256 msg, b < 256 := by
  unfold sha256
  rcases hst : (chunk64 (shaPad msg)).foldl sha256Block sha256Init with
    ⟨a, b, c, d, e, f, g, h⟩
  intro x hx
  simp only [sha256Out, List.mem_append] at hx
  rcases hx with ((((((hx | hx) | hx) | hx) | hx) | hx) | hx) | hx <;>
    exact be32_lt _ x hx

theorem hmac_sha1_bytes_lt (key msg : List Nat) :
    ∀ b ∈ hmac sha1 key msg, b < 256 :=
  fun b hb => sha1_bytes_lt _ b hb

theorem hmac_sha256_bytes_lt (key msg : List Nat) :
    ∀ b ∈ hmac sha256 key msg, b < 256 :=
  fun b hb => sha256_bytes_lt _ b hb

theorem strBytes_lt (s : String) : ∀ b ∈ strBytes s, b < 256 := by
  intro b hb
  unfold strBytes at hb
  simp only [List.mem_flatMap] at hb
  obtain ⟨c, _, hbc⟩ := hb
  have hv : c.toNat < 55296 ∨ (57343 < c.toNat ∧ c.toNat < 1114112) :=
    c.valid
  exact utf8EncodeCp_lt_256 c.toNat (by rcases hv with h | h <;> omega) b hbc

theorem stringMk_toList (s : String) : String.mk s.toList = s := by
  cases s
  rfl

theorem toList_stringMk (l : List Char) : (String.mk l).toList = l := rfl

theorem string_length_toList (s : String) : s.length = s.toList.length := rfl

theorem string_toList_append (a b : String) :
    (a ++ b).toList = a.toList ++ b.toList := String.data_append a b

theorem sign_toList (data key : String) :
    (sign data key).toList =
      urlSafe (b64EncodePadded (hmac sha1 (strBytes key)
        (strBytes data))) := by
  simp only [sign, signAlgo, String.toList]
  rfl

theorem sign_toList_length (data key : String) :
    (sign data key).toList.length = 27 := by
  rw [sign_toList]
  have hd := hmac_sha1_length (strBytes key) (strBytes data)
  have hbs := hmac_sha1_bytes_lt (strBytes key) (strBytes data)
  have hcore : (b64EncodeCore (hmac sha1 (strBytes key)
      (strBytes data))).length = 27 := by
    rw [b64EncodeCore_length, hd]
    decide
  unfold b64EncodePadded
  rw [hcore]
  have hrep : List.replicate ((4 - 27 % 4) % 4) '=' = ['='] := rfl
  rw [hrep]
  unfold urlSafe
  rw [List.flatMap_append]
  have h1 : ((b64EncodeCore (hmac sha1 (strBytes key)
      (strBytes data))).flatMap urlSafeChar).length = 27 := by
    have := urlSafe_length (b64EncodeCore (hmac sha1 (strBytes key)
        (strBytes data))) (b64EncodeCore_ne_eq _ hbs)
    unfold urlSafe at this
    rw [this, hcore]
  have h2 : (['='] : List Char).flatMap urlSafeChar = [] := rfl
  rw [List.length_append, h1, h2]
  rfl

theorem sign_length (data key : String) : (sign data key).length = 27 := by
  rw [string_length_toList]
  exact sign_toList_length data key

theorem signAsync_some (data key : String) (kb : List Nat)
    (h : b64Decode key = some kb) :
    signAsync data key =
      some (String.mk (urlSafe (b64EncodeCore
        (hmac sha256 kb (strBytes data))))) := by
  unfold signAsync
  rw [h]

theorem signAsync_toList_length (data key sig : String)
    (h : signAsync data key = some sig) : sig.toList.length = 43 := by
  unfold signAsync at h
  rcases hk : b64Decode key with _ | kb <;> rw [hk] at h
  · exact absurd h (by simp)
  · have hsig : sig = String.mk (urlSafe (b64EncodeCore
        (hmac sha256 kb (strBytes data)))) :=
      (Option.some.inj h).symm
    subst hsig
    have hd := hmac_sha256_length kb (strBytes data)
    have hbs := hmac_sha256_bytes_lt kb (strBytes data)
    have hcore : (b64EncodeCore (hmac sha256 kb
        (strBytes data))).length = 43 := by
      rw [b64EncodeCore_length, hd]
      decide
    have hlen := urlSafe_length (b64EncodeCore (hmac sha256 kb
        (strBytes data))) (b64EncodeCore_ne_eq _ hbs)
    rw [toList_stringMk, hlen, hcore]

theorem take_append_of_length {α : Type} (l1 l2 : List α) (n : Nat)
    (h : l1.length = n) : (l1 ++ l2).take n = l1 := by
  subst h
  exact List.take_left l1 l2

theorem drop_append_of_length {α : Type} (l1 l2 : List α) (n : Nat)
    (h : l1.length = n) : (l1 ++ l2).drop n = l2 := by
  subst h
  exact List.drop_left l1 l2

theorem createSession_toList (d : SessionData) (k : String) :
    (createSession d k).toList =
      (sign (stringify d) k).toList ++
        b64EncodeCore (strBytes (stringify d)) := by
  simp only [createSession]
  rw [string_toList_append]
  rfl

theorem verifySessionString_roundtrip (rk : List Nat) (d : SessionData)
    (k : String) : verifySessionString rk (createSession d k) k = true := by
  have hsplit := createSession_toList d k
  have hlen := sign_toList_length (stringify d) k
  have hdrop : (createSession d k).toList.drop SIGNATURE_DIGEST_LENGTH =
      b64EncodeCore (strBytes (stringify d)) := by
    rw [hsplit]
    exact drop_append_of_length _ _ _ hlen
  have htake : (createSession d k).toList.take SIGNATURE_DIGEST_LENGTH =
      (sign (stringify d) k).toList := by
    rw [hsplit]
    exact take_append_of_length _ _ _ hlen
  unfold verifySessionString verifyPipeline
  rw [hdrop, htake, stringMk_toList,
    b64Decode_encode _ (strBytes_lt (stringify d))]
  show verify rk k (utf8DecodeStr (strBytes (stringify d)))
    (sign (stringify d) k) = true
  rw [utf8DecodeStr_strBytes]
  unfold verify
  rw [timeSafeCompare_eq]
  exact beq_self_eq_true _

theorem verifySessionStringAsync_roundtrip (rk : List Nat)
    (d : SessionData) (k t : String)
    (h : createSessionAsync d k = some t) :
    verifySessionStringAsync rk t k = true := by
  unfold createSessionAsync at h
  rcases hs : signAsync (stringify d) k with _ | sig <;> rw [hs] at h
  · simp at h
  · simp only [Option.bind_some, Option.pure_def] at h
    have ht : t = sig ++ String.mk (b64EncodeCore
        (strBytes (stringify d))) := by
      exact (Option.some.inj h).symm
    subst ht
    have hlen : sig.toList.length = SIGNATURE_DIGEST_LENGTH_ASYNC :=
      signAsync_toList_length _ _ _ hs
    have hsplit : (sig ++ String.mk (b64EncodeCore
        (strBytes (stringify d)))).toList =
        sig.toList ++ b64EncodeCore (strBytes (stringify d)) := by
      rw [string_toList_append]
      rfl
    have hpipe : verifyPipelineAsync rk (sig ++ String.mk (b64EncodeCore
        (strBytes (stringify d)))) k = .ok true := by
      unfold verifyPipelineAsync
      rw [hsplit, drop_append_of_length _ _ _ hlen,
        take_append_of_length _ _ _ hlen, stringMk_toList,
        b64Decode_encode _ (strBytes_lt (stringify d))]
      show (match verifyAsync rk k (utf8DecodeStr (strBytes (stringify d)))
          sig with
        | none => (Except.error () : Except Unit Bool)
        | some b => .ok b) = .ok true
      rw [utf8DecodeStr_strBytes]
      have hv : verifyAsync rk k (stringify d) sig = some true := by
        unfold verifyAsync
        rw [hs]
        simp [timeSafeCompareAsync]
      rw [hv]
    unfold verifySessionStringAsync
    rw [hpipe]

theorem sortPairs_perm (d : SessionData) : (sortPairs d).Perm d :=
  List.perm_insertionSort keyLe d

theorem sortPairs_sorted (d : SessionData) :
    (sortPairs d).Sorted keyLe :=
  List.sorted_insertionSort keyLe d

theorem keyLt_antisymm (a b : String × String) (hab : keyLt a b)
    (hba : keyLt b a) : a = b := by
  exfalso
  exact hab.2 (utf16Units_inj (lexLe_antisymm _ _ hab.1 hba.1))

theorem sortPairs_eq_of_perm (d1 d2 : SessionData) (hperm : d1.Perm d2)
    (hnd : (d1.map Prod.fst).Nodup) : sortPairs d1 = sortPairs d2 := by
  have hp : (sortPairs d1).Perm (sortPairs d2) :=
    ((sortPairs_perm d1).trans hperm).trans (sortPairs_perm d2).symm
  have hnd1 : ((sortPairs d1).map Prod.fst).Nodup :=
    (((sortPairs_perm d1).map Prod.fst).nodup_iff).mpr hnd
  have hnd2 : ((sortPairs d2).map Prod.fst).Nodup := by
    refine (((hp.symm).map Prod.fst).nodup_iff).mpr hnd1
  have hne1 : (sortPairs d1).Pairwise (fun p q => p.1 ≠ q.1) :=
    (List.pairwise_map).mp hnd1
  have hne2 : (sortPairs d2).Pairwise (fun p q => p.1 ≠ q.1) :=
    (List.pairwise_map).mp hnd2
  have hs1 : (sortPairs d1).Pairwise keyLt :=
    ((sortPairs_sorted d1).and hne1).imp (fun h => ⟨h.1, h.2⟩)
  have hs2 : (sortPairs d2).Pairwise keyLt :=
    ((sortPairs_sorted d2).and hne2).imp (fun h => ⟨h.1, h.2⟩)
  haveI : IsAntisymm (String × String) keyLt := ⟨keyLt_antisymm⟩
  exact List.eq_of_perm_of_sorted hp hs1 hs2

theorem stringify_eq_of_perm (d1 d2 : SessionData) (hperm : d1.Perm d2)
    (hnd : (d1.map Prod.fst).Nodup) : stringify d1 = stringify d2 := by
  unfold stringify
  rw [sortPairs_eq_of_perm d1 d2 hperm hnd]

theorem createSession_eq_of_perm (d1 d2 : SessionData) (k : String)
    (hperm : d1.Perm d2) (hnd : (d1.map Prod.fst).Nodup) :
    createSession d1 k = createSession d2 k := by
  unfold createSession
  rw [stringify_eq_of_perm d1 d2 hperm hnd]

theorem hexVal_hexDigit : ∀ n, n < 16 → hexVal (hexDigit n) = some n := by
  decide

theorem parseJStringGo_step (c : Char) (f : Nat) (acc tail : List Char) :
    parseJStringGo (f + 1) acc (jsonEscapeChar c ++ tail) =
      parseJStringGo f (c :: acc) tail := by
  unfold jsonEscapeChar
  split_ifs with h1 h2 h3 h4 h5 h6 h7 h8
  · subst h1
    rfl
  · subst h2
    rfl
  · show parseJStringGo f (Char.ofNat 8 :: acc) tail = _
    rw [show Char.ofNat 8 = c by rw [← h3, Char.ofNat_toNat]]
  · show parseJStringGo f (Char.ofNat 9 :: acc) tail = _
    rw [show Char.ofNat 9 = c by rw [← h4, Char.ofNat_toNat]]
  · show parseJStringGo f (Char.ofNat 10 :: acc) tail = _
    rw [show Char.ofNat 10 = c by rw [← h5, Char.ofNat_toNat]]
  · show parseJStringGo f (Char.ofNat 12 :: acc) tail = _
    rw [show Char.ofNat 12 = c by rw [← h6, Char.ofNat_toNat]]
  · show parseJStringGo f (Char.ofNat 13 :: acc) tail = _
    rw [show Char.ofNat 13 = c by rw [← h7, Char.ofNat_toNat]]
  · obtain ⟨n, hn, rfl⟩ : ∃ n, n < 32 ∧ c = Char.ofNat n :=
      ⟨c.toNat, h8, (Char.ofNat_toNat c).symm⟩
    interval_cases n <;> rfl
  · show parseJStringGo (f + 1) acc (c :: tail) = _
    simp only [parseJStringGo]
    rw [if_neg h1, if_neg h2]

theorem jsonEscapeChar_length_pos (c : Char) :
    1 ≤ (jsonEscapeChar c).length := by
  unfold jsonEscapeChar
  split_ifs <;> simp

theorem escList_length_ge (l : List Char) :
    l.length ≤ (l.flatMap jsonEscapeChar).length := by
  induction l with
  | nil => simp
  | cons c l ih =>
      simp only [List.flatMap_cons, List.length_append, List.length_cons]
      have := jsonEscapeChar_length_pos c
      omega

theorem parseJStringGo_escaped (l : List Char) :
    ∀ (fuel : Nat) (acc rest : List Char), l.length + 1 ≤ fuel →
      parseJStringGo fuel acc (l.flatMap jsonEscapeChar ++ '"' :: rest) =
        some (String.mk (acc.reverse ++ l), rest) := by
  induction l with
  | nil =>
      intro fuel acc rest hf
      rcases fuel with _ | f
      · omega
      · simp [parseJStringGo]
  | cons c l ih =>
      intro fuel acc rest hf
      rcases fuel with _ | f
      · omega
      · simp only [List.flatMap_cons, List.append_assoc, List.length_cons]
          at hf ⊢
        rw [parseJStringGo_step c f acc
          (l.flatMap jsonEscapeChar ++ '"' :: rest),
          ih f (c :: acc) rest (by omega)]
        simp

theorem parseJString_quote (s : String) (rest : List Char) :
    parseJString (jsonQuote s ++ rest) = some (s, rest) := by
  unfold parseJString jsonQuote
  simp only [List.cons_append, List.append_assoc, List.singleton_append,
    List.nil_append, if_true]
  have hesc := escList_length_ge s.toList
  have h := parseJStringGo_escaped s.toList
    ((s.toList.flatMap jsonEscapeChar ++ '"' :: rest).length) [] rest
    (by rw [List.length_append, List.length_cons]; omega)
  rw [h]
  simp [stringMk_toList]

theorem intercalate_comma_single (x : List Char) :
    List.intercalate [','] [x] = x := by
  simp [List.intercalate]

theorem intercalate_comma_cons (x y : List Char) (zs : List (List Char)) :
    List.intercalate [','] (x :: y :: zs) =
      x ++ ',' :: List.intercalate [','] (y :: zs) := by
  simp [List.intercalate, List.intersperse]

theorem jsonQuote_length (s : String) :
    (jsonQuote s).length = (s.toList.flatMap jsonEscapeChar).length + 2 := by
  unfold jsonQuote
  simp

theorem serializePair_length_ge (p : String × String) :
    5 ≤ (serializePair p).length := by
  unfold serializePair
  rw [List.length_append, jsonQuote_length, List.length_cons,
    jsonQuote_length]
  omega

theorem parseJPairsGo_ser (l : SessionData) :
    ∀ (p : String × String) (fuel : Nat), l.length + 1 ≤ fuel →
      parseJPairsGo fuel
          (List.intercalate [','] ((p :: l).map serializePair) ++ [rbrace]) =
        some (p :: l) := by
  induction l with
  | nil =>
      intro p fuel hf
      rcases fuel with _ | f
      · omega
      · rw [List.map_singleton, intercalate_comma_single]
        unfold serializePair
        rw [List.append_assoc]
        unfold parseJPairsGo
        rw [parseJString_quote]
        show (do
          let vr ← parseJString (jsonQuote p.2 ++ [rbrace])
          match vr.2 with
          | [] => none
          | d :: cs4 =>
            if d = ',' then do
              let tl ← parseJPairsGo f cs4
              pure ((p.1, vr.1) :: tl)
            else if d = rbrace ∧ cs4 = [] then pure [(p.1, vr.1)]
            else none : Option SessionData) = some [p]
        rw [parseJString_quote]
        rfl
  | cons q l ih =>
      intro p fuel hf
      rcases fuel with _ | f
      · omega
      · rw [List.map_cons, List.map_cons, intercalate_comma_cons,
          ← List.map_cons serializePair q l]
        unfold serializePair
        simp only [List.append_assoc, List.cons_append]
        unfold parseJPairsGo
        rw [parseJString_quote]
        show (do
          let vr ← parseJString (jsonQuote p.2 ++
            (',' :: (List.intercalate [',']
              ((q :: l).map serializePair) ++ [rbrace])))
          match vr.2 with
          | [] => none
          | d :: cs4 =>
            if d = ',' then do
              let tl ← parseJPairsGo f cs4
              pure ((p.1, vr.1) :: tl)
            else if d = rbrace ∧ cs4 = [] then pure [(p.1, vr.1)]
            else none : Option SessionData) = some (p :: q :: l)
        rw [parseJString_quote]
        show (do
          let tl ← parseJPairsGo f
            (List.intercalate [','] ((q :: l).map serializePair) ++
              [rbrace])
          pure ((p.1, p.2) :: tl) : Option SessionData) = some (p :: q :: l)
        rw [ih q f (by simp only [List.length_cons] at hf ⊢; omega)]
        rfl

theorem intercalate_ser_length (l : SessionData) :
    ∀ p : String × String, l.length + 1 ≤
      (List.intercalate [','] ((p :: l).map serializePair)).length := by
  induction l with
  | nil =>
      intro p
      rw [List.map_singleton, intercalate_comma_single]
      have := serializePair_length_ge p
      simp only [List.length_nil]
      omega
  | cons q l ih =>
      intro p
      rw [List.map_cons, List.map_cons, intercalate_comma_cons,
        ← List.map_cons serializePair q l]
      rw [List.length_append, List.length_cons]
      have h5 := serializePair_length_ge p
      have hq := ih q
      simp only [List.length_cons]
      omega

theorem jsonParseObj_stringify (d : SessionData) :
    jsonParseObj (stringify d) = some (sortPairs d) := by
  unfold jsonParseObj stringify
  rw [toList_stringMk]
  rcases hsp : sortPairs d with _ | ⟨p, l⟩
  · rfl
  · have hne : List.intercalate [','] ((p :: l).map serializePair) ++
        [rbrace] ≠ [rbrace] := by
      intro he
      have hlen := congrArg List.length he
      rw [List.length_append] at hlen
      have hge := intercalate_ser_length l p
      simp only [List.length_cons, List.length_nil] at hlen
      omega
    show (if (List.intercalate [','] ((p :: l).map serializePair) ++
        [rbrace]) = [rbrace] then some [] else
      parseJPairsGo (List.intercalate [','] ((p :: l).map serializePair)
          ++ [rbrace]).length
        (List.intercalate [','] ((p :: l).map serializePair) ++ [rbrace]))
      = some (p :: l)
    rw [if_neg hne]
    refine parseJPairsGo_ser l p _ ?_
    rw [List.length_append]
    have hge := intercalate_ser_length l p
    simp only [List.length_cons]
    omega

theorem parseSession_createSession (d : SessionData) (k : String) :
    parseSession (createSession d k) = some (sortPairs d) := by
  have hlen := sign_toList_length (stringify d) k
  have hdrop : (createSession d k).toList.drop SIGNATURE_DIGEST_LENGTH =
      b64EncodeCore (strBytes (stringify d)) := by
    rw [createSession_toList]
    exact drop_append_of_length _ _ _ hlen
  unfold parseSession
  rw [hdrop, b64Decode_encode _ (strBytes_lt (stringify d))]
  show jsonParseObj (utf8DecodeStr (strBytes (stringify d))) =
    some (sortPairs d)
  rw [utf8DecodeStr_strBytes]
  exact jsonParseObj_stringify d

theorem cookieFold_lookup (dec : String → Option String)
    (items : List (List String)) :
    ∀ (acc : String → Option CookieVal) (k : String),
      (items.foldl (cookieStep dec) acc) k =
        match (items.filter (fun it => it.headD "" == k)).getLast? with
        | some it => some (match it[1]? with
            | some v => .str (tryDecode v dec)
            | none => .flag)
        | none => acc k := by
  induction items with
  | nil =>
      intro acc k
      rfl
  | cons it items ih =>
      intro acc k
      rw [List.foldl_cons, ih]
      simp only [List.filter_cons]
      by_cases hname : (it.headD "" == k) = true
      · rw [if_pos hname]
        rcases hrest : (items.filter
            (fun x => x.headD "" == k)).getLast? with _ | it2
        · rw [hrest]
          have hrnil : items.filter (fun x => x.headD "" == k) = [] :=
            List.getLast?_eq_none_iff.mp hrest
          rw [hrnil]
          have hk : k = it.headD "" := (beq_iff_eq.mp hname).symm
          show cookieStep dec acc it k = some (match it[1]? with
            | some v => .str (tryDecode v dec)
            | none => .flag)
          unfold cookieStep
          rw [if_pos hk]
        · rcases hflt : items.filter (fun x => x.headD "" == k) with
            _ | ⟨r, rs⟩
          · rw [hflt] at hrest
            exact absurd hrest (by simp)
          · rw [hflt] at hrest
            rw [hflt, List.getLast?_cons_cons, hrest]
      · rw [if_neg hname]
        rcases hrest : (items.filter
            (fun x => x.headD "" == k)).getLast? with _ | it2
        · rw [hrest]
          have hk : ¬k = it.headD "" := fun he =>
            hname (beq_iff_eq.mpr he.symm)
          show cookieStep dec acc it k = acc k
          unfold cookieStep
          rw [if_neg hk]
        · rw [hrest]

theorem verifySessionString_wrong_key (rk : List Nat) (d : SessionData)
    (k1 k2 : String)
    (hne : sign (stringify d) k1 ≠ sign (stringify d) k2) :
    verifySessionString rk (createSession d k1) k2 = false := by
  have hlen := sign_toList_length (stringify d) k1
  have hdrop : (createSession d k1).toList.drop SIGNATURE_DIGEST_LENGTH =
      b64EncodeCore (strBytes (stringify d)) := by
    rw [createSession_toList]
    exact drop_append_of_length _ _ _ hlen
  have htake : (createSession d k1).toList.take SIGNATURE_DIGEST_LENGTH =
      (sign (stringify d) k1).toList := by
    rw [createSession_toList]
    exact take_append_of_length _ _ _ hlen
  unfold verifySessionString verifyPipeline
  rw [hdrop, htake, stringMk_toList,
    b64Decode_encode _ (strBytes_lt (stringify d))]
  show verify rk k2 (utf8DecodeStr (strBytes (stringify d)))
    (sign (stringify d) k1) = false
  rw [utf8DecodeStr_strBytes]
  unfold verify
  rw [timeSafeCompare_eq]
  exact beq_eq_false_iff_ne.mpr hne

theorem verifySessionStringAsync_wrong_key (rk : List Nat)
    (d : SessionData) (k1 k2 t : String)
    (hc : createSessionAsync d k1 = some t)
    (hdiff : asyncSigDiffers rk
      (String.mk (t.toList.take SIGNATURE_DIGEST_LENGTH_ASYNC)) d k2 =
      true) :
    verifySessionStringAsync rk t k2 = false := by
  unfold createSessionAsync at hc
  rcases hs1 : signAsync (stringify d) k1 with _ | sig1 <;> rw [hs1] at hc
  · simp at hc
  · simp only [Option.bind_some, Option.pure_def] at hc
    have ht : t = sig1 ++ String.mk (b64EncodeCore
        (strBytes (stringify d))) := (Option.some.inj hc).symm
    subst ht
    have hlen : sig1.toList.length = SIGNATURE_DIGEST_LENGTH_ASYNC :=
      signAsync_toList_length _ _ _ hs1
    have hsplit : (sig1 ++ String.mk (b64EncodeCore
        (strBytes (stringify d)))).toList =
        sig1.toList ++ b64EncodeCore (strBytes (stringify d)) := by
      rw [string_toList_append]
      rfl
    have htake : String.mk ((sig1 ++ String.mk (b64EncodeCore
        (strBytes (stringify d)))).toList.take
        SIGNATURE_DIGEST_LENGTH_ASYNC) = sig1 := by
      rw [hsplit, take_append_of_length _ _ _ hlen, stringMk_toList]
    rw [htake] at hdiff
    rcases hs2 : signAsync (stringify d) k2 with _ | sig2
    · have hpipe : verifyPipelineAsync rk (sig1 ++ String.mk
          (b64EncodeCore (strBytes (stringify d)))) k2 = .error () := by
        unfold verifyPipelineAsync
        rw [hsplit, drop_append_of_length _ _ _ hlen,
          take_append_of_length _ _ _ hlen, stringMk_toList,
          b64Decode_encode _ (strBytes_lt (stringify d))]
        show (match verifyAsync rk k2
            (utf8DecodeStr (strBytes (stringify d))) sig1 with
          | none => (Except.error () : Except Unit Bool)
          | some b => .ok b) = .error ()
        rw [utf8DecodeStr_strBytes]
        have hv : verifyAsync rk k2 (stringify d) sig1 = none := by
          unfold verifyAsync
          rw [hs2]
          rfl
        rw [hv]
      unfold verifySessionStringAsync
      rw [hpipe]
    · unfold asyncSigDiffers at hdiff
      rw [hs2] at hdiff
      have hpipe : verifyPipelineAsync rk (sig1 ++ String.mk
          (b64EncodeCore (strBytes (stringify d)))) k2 = .ok false := by
        unfold verifyPipelineAsync
        rw [hsplit, drop_append_of_length _ _ _ hlen,
          take_append_of_length _ _ _ hlen, stringMk_toList,
          b64Decode_encode _ (strBytes_lt (stringify d))]
        show (match verifyAsync rk k2
            (utf8DecodeStr (strBytes (stringify d))) sig1 with
          | none => (Except.error () : Except Unit Bool)
          | some b => .ok b) = .ok false
        rw [utf8DecodeStr_strBytes]
        have hv : verifyAsync rk k2 (stringify d) sig1 =
            some (timeSafeCompareAsync rk sig1 sig2) := by
          unfold verifyAsync
          rw [hs2]
          rfl
        rw [hv]
        have hcmp : timeSafeCompareAsync rk sig1 sig2 = false := by
          unfold timeSafeCompareAsync
          simpa using hdiff
        rw [hcmp]
      unfold verifySessionStringAsync
      rw [hpipe]

theorem parseCookie_lookup (cookie : String)
    (dec : String → Option String) (k : String) :
    parseCookie cookie dec k =
      match ((cookieItems cookie).filter
          (fun it => it.headD "" == k)).getLast? with
      | some it => some (match it[1]? with
          | some v => .str (tryDecode v dec)
          | none => .flag)
      | none => if k = "session" then some (.str "") else none :=
  cookieFold_lookup dec (cookieItems cookie) _ k

theorem sign_toList_length_const (data key : String) :
    (sign data key).toList.length = SIGNATURE_DIGEST_LENGTH :=
  sign_toList_length data key

/-- Claim C1: for every session-data mapping `d` and every key `k`,
verifying a freshly created token with the same key succeeds:
`verifySessionString (createSession d k) k` is true, in the synchronous
variant unconditionally and in the asynchronous variant for the token
`createSession` actually produced (the ephemeral comparator key `rk` is
universally quantified in both). -/
theorem claim_C1_roundtrip_verify :
    (∀ (rk : List Nat) (d : SessionData) (k : String),
      verifySessionString rk (createSession d k) k = true) ∧
    (∀ (rk : List Nat) (d : SessionData) (k t : String),
      createSessionAsync d k = some t →
      verifySessionStringAsync rk t k = true) :=
  ⟨verifySessionString_roundtrip, verifySessionStringAsync_roundtrip⟩

set_option maxRecDepth 1000000 in
/-- Claim C1 witness: the round trip evaluated at concrete session data
and keys, for both variants. -/
theorem claim_C1_roundtrip_verify_witness :
    verifySessionString [3, 7] (createSession [("hello", "world")] "k") "k"
      = true ∧
    verifySessionStringAsync [5]
      ((createSessionAsync [("hello", "world")] "AAAA").getD "") "AAAA" =
      true := by
  constructor
  · exact claim_C1_roundtrip_verify.1 [3, 7] [("hello", "world")] "k"
  · exact claim_C1_roundtrip_verify.2 [5] [("hello", "world")] "AAAA" _
      (by rfl)

/-- Claim C2: verification never propagates an exception: whenever the
body of the `try` block (the pipeline) raises — a malformed-base64 payload
in either variant, or the key-decoding failure inside the asynchronous
`sign` — the catch clause makes `verifySessionString` return `false`. -/
theorem claim_C2_fail_closed :
    (∀ (rk : List Nat) (s k : String),
      verifyPipeline rk s k = .error () →
      verifySessionString rk s k = false) ∧
    (∀ (rk : List Nat) (s k : String),
      verifyPipelineAsync rk s k = .error () →
      verifySessionStringAsync rk s k = false) := by
  constructor <;> intro rk s k h
  · unfold verifySessionString
    rw [h]
  · unfold verifySessionStringAsync
    rw [h]

set_option maxRecDepth 1000000 in
/-- Claim C2 witness: tokens whose payload is not valid base64 make the
pipeline raise, and verification returns false, in both variants. -/
theorem claim_C2_fail_closed_witness :
    verifySessionString [] "AAAAAAAAAAAAAAAAAAAAAAAAAAA!" "k" = false ∧
    verifySessionStringAsync []
      "AAAAAAAAAAAAAAAAAAAAAAAAAAAAAAAAAAAAAAAAAAA!" "k" = false := by
  constructor
  · exact claim_C2_fail_closed.1 [] _ "k" (by rfl)
  · exact claim_C2_fail_closed.2 [] _ "k" (by rfl)

set_option maxRecDepth 1000000 in
/-- Claim C3 counterexample: the payload is not URL-safe base64 — the
multiformats `'base64'` codec uses the standard alphabet, so for the data
`a ↦ ???` the payload portion after the 27-character signature contains
the character `/`, which the claim asserts cannot occur. -/
theorem claim_C3_counterexample :
    '/' ∈ (createSession [("a", "???")] "k").toList.drop
      SIGNATURE_DIGEST_LENGTH := by
  rw [createSession_toList,
    drop_append_of_length _ _ _ (sign_toList_length_const _ _)]
  decide

/-- Claim C3 (amended): the token is the signature concatenated, with no
delimiter, with the standard-alphabet unpadded base64 (not base64url) of
the canonical JSON bytes; the payload after the signature never contains
`=`, but may contain `+` and `/`. -/
theorem claim_C3_token_format :
    (∀ (d : SessionData) (k : String),
      (createSession d k).toList =
        (sign (stringify d) k).toList ++
          b64EncodeCore (strBytes (stringify d)) ∧
      ∀ c ∈ (createSession d k).toList.drop SIGNATURE_DIGEST_LENGTH,
        c ≠ '=') ∧
    (∀ (d : SessionData) (k t : String),
      createSessionAsync d k = some t →
      ∃ sig, signAsync (stringify d) k = some sig ∧
        t.toList = sig.toList ++ b64EncodeCore (strBytes (stringify d)) ∧
        ∀ c ∈ t.toList.drop SIGNATURE_DIGEST_LENGTH_ASYNC, c ≠ '=') := by
  constructor
  · intro d k
    refine ⟨createSession_toList d k, ?_⟩
    rw [createSession_toList,
      drop_append_of_length _ _ _ (sign_toList_length_const _ _)]
    exact b64EncodeCore_ne_eq _ (strBytes_lt (stringify d))
  · intro d k t hc
    unfold createSessionAsync at hc
    rcases hs : signAsync (stringify d) k with _ | sig <;> rw [hs] at hc
    · exact absurd hc (by simp)
    · simp only [Option.bind_some, Option.pure_def] at hc
      have ht : t = sig ++ String.mk (b64EncodeCore
          (strBytes (stringify d))) := (Option.some.inj hc).symm
      subst ht
      have hlen : sig.toList.length = SIGNATURE_DIGEST_LENGTH_ASYNC :=
        signAsync_toList_length _ _ _ hs
      have hsplit : (sig ++ String.mk (b64EncodeCore
          (strBytes (stringify d)))).toList =
          sig.toList ++ b64EncodeCore (strBytes (stringify d)) := by
        rw [string_toList_append]
        rfl
      refine ⟨sig, rfl, hsplit, ?_⟩
      rw [hsplit, drop_append_of_length _ _ _ hlen]
      exact b64EncodeCore_ne_eq _ (strBytes_lt (stringify d))

set_option maxRecDepth 1000000 in
/-- Claim C3 witness: the amended format at concrete inputs, with the
asynchronous creation hypothesis discharged by evaluation. -/
theorem claim_C3_token_format_witness :
    (∀ c ∈ (createSession [("x", "y")] "kk").toList.drop
      SIGNATURE_DIGEST_LENGTH, c ≠ '=') ∧
    (∃ sig, signAsync (stringify [("x", "y")]) "AAAA" = some sig ∧
      ((createSessionAsync [("x", "y")] "AAAA").getD "").toList =
        sig.toList ++ b64EncodeCore (strBytes (stringify [("x", "y")])) ∧
      ∀ c ∈ ((createSessionAsync [("x", "y")] "AAAA").getD
        "").toList.drop SIGNATURE_DIGEST_LENGTH_ASYNC, c ≠ '=') := by
  constructor
  · exact (claim_C3_token_format.1 [("x", "y")] "kk").2
  · exact claim_C3_token_format.2 [("x", "y")] "AAAA" _ (by rfl)

/-- Claim C4: the signature produced by `sign` contains none of `/`, `+`
or `=`, and its length is exactly the framing constant of its variant:
27 characters for the synchronous HMAC-SHA1 default, 43 for the
asynchronous HMAC-SHA-256. -/
theorem claim_C4_signature_shape :
    (∀ data key : String,
      (sign data key).length = SIGNATURE_DIGEST_LENGTH ∧
      ∀ c ∈ (sign data key).toList, c ≠ '/' ∧ c ≠ '+' ∧ c ≠ '=') ∧
    (∀ data key sig : String, signAsync data key = some sig →
      sig.length = SIGNATURE_DIGEST_LENGTH_ASYNC ∧
      ∀ c ∈ sig.toList, c ≠ '/' ∧ c ≠ '+' ∧ c ≠ '=') := by
  constructor
  · intro data key
    refine ⟨sign_length data key, ?_⟩
    rw [sign_toList]
    exact urlSafe_safe _
  · intro data key sig h
    refine ⟨?_, ?_⟩
    · rw [string_length_toList]
      exact signAsync_toList_length data key sig h
    · unfold signAsync at h
      rcases hk : b64Decode key with _ | kb <;> rw [hk] at h
      · exact absurd h (by simp)
      · have hsig : sig = String.mk (urlSafe (b64EncodeCore
            (hmac sha256 kb (strBytes data)))) := (Option.some.inj h).symm
        subst hsig
        rw [toList_stringMk]
        exact urlSafe_safe _

set_option maxRecDepth 1000000 in
/-- Claim C4 witness: the signature shape at concrete inputs, with the
asynchronous signing hypothesis discharged by evaluation. -/
theorem claim_C4_signature_shape_witness :
    ((sign "payload" "secret").length = SIGNATURE_DIGEST_LENGTH ∧
      ∀ c ∈ (sign "payload" "secret").toList,
        c ≠ '/' ∧ c ≠ '+' ∧ c ≠ '=') ∧
    (((signAsync "payload" "AAAA").getD "").length =
        SIGNATURE_DIGEST_LENGTH_ASYNC ∧
      ∀ c ∈ ((signAsync "payload" "AAAA").getD "").toList,
        c ≠ '/' ∧ c ≠ '+' ∧ c ≠ '=') := by
  constructor
  · exact claim_C4_signature_shape.1 "payload" "secret"
  · exact claim_C4_signature_shape.2 "payload" "AAAA" _ (by rfl)

/-- Claim C5: `createSession` is deterministic over the logical content of
its input: two session-data mappings equal as key-value maps (the same
pairs in any insertion order, keys duplicate-free) produce byte-identical
tokens under the same key, because the canonical serializer sorts the
keys. -/
theorem claim_C5_canonical_determinism :
    ∀ (d1 d2 : SessionData) (k : String), d1.Perm d2 →
      (d1.map Prod.fst).Nodup →
      createSession d1 k = createSession d2 k :=
  fun d1 d2 k hperm hnd => createSession_eq_of_perm d1 d2 k hperm hnd

set_option maxRecDepth 1000000 in
/-- Claim C5 witness: the two insertion orders of `a ↦ 1, b ↦ 2` yield
the same token. -/
theorem claim_C5_canonical_determinism_witness :
    createSession [("a", "1"), ("b", "2")] "k" =
      createSession [("b", "2"), ("a", "1")] "k" :=
  claim_C5_canonical_determinism [("a", "1"), ("b", "2")]
    [("b", "2"), ("a", "1")] "k" (by decide) (by decide)

/-- Claim C6: decoding a fresh token gives back the original data: for
duplicate-free session data (a JavaScript object cannot repeat a key, and
string values survive the JSON round trip), `parseSession` of
`createSession d k` returns the canonically ordered pair list, which is a
permutation of `d` — the same mapping. -/
theorem claim_C6_parse_roundtrip :
    ∀ (d : SessionData) (k : String), (d.map Prod.fst).Nodup →
      parseSession (createSession d k) = some (sortPairs d) ∧
      (sortPairs d).Perm d :=
  fun d k _ => ⟨parseSession_createSession d k, sortPairs_perm d⟩

set_option maxRecDepth 1000000 in
/-- Claim C6 witness: the decode round trip at concrete inputs. -/
theorem claim_C6_parse_roundtrip_witness :
    parseSession (createSession [("hello", "world")] "kk") =
      some (sortPairs [("hello", "world")]) ∧
    (sortPairs [("hello", "world")]).Perm [("hello", "world")] :=
  claim_C6_parse_roundtrip [("hello", "world")] "kk" (by decide)

theorem timeSafeCompareAsync_collision (rk : List Nat) :
    ∃ a b : String, a ≠ b ∧ timeSafeCompareAsync rk a b = true := by
  have hinj : Function.Injective
      (fun n : Nat => String.mk (List.replicate n 'a')) := by
    intro m n h
    have h2 := congrArg (fun s => s.toList.length) h
    simpa using h2
  have : Infinite String := Infinite.of_injective _ hinj
  obtain ⟨a, b, hne, heq⟩ :=
    Finite.exists_ne_map_eq_of_infinite (hmacDigestFn rk)
  refine ⟨a, b, hne, ?_⟩
  have hdig : hmac sha256 rk (strBytes a) = hmac sha256 rk (strBytes b) := by
    apply List.ext_getElem
    · rw [hmac_sha256_length, hmac_sha256_length]
    · intro i h1 h2
      have hi : i < 32 := by rwa [hmac_sha256_length] at h1
      have h3 := congrFun heq ⟨i, hi⟩
      unfold hmacDigestFn at h3
      have h4 : (hmac sha256 rk (strBytes a)).getD i 0 % 256 =
          (hmac sha256 rk (strBytes b)).getD i 0 % 256 :=
        congrArg Fin.val h3
      rw [List.getD_eq_getElem _ _ h1, List.getD_eq_getElem _ _ h2] at h4
      rwa [Nat.mod_eq_of_lt
          (hmac_sha256_bytes_lt rk (strBytes a) _ (List.getElem_mem h1)),
        Nat.mod_eq_of_lt
          (hmac_sha256_bytes_lt rk (strBytes b) _ (List.getElem_mem h2))]
        at h4
  unfold timeSafeCompareAsync
  exact beq_iff_eq.mpr hdig

/-- Claim C7 counterexample: the asynchronous comparator is not
true-iff-equal.  It compares only the 32-byte HMAC-SHA-256 digests of
its inputs under the ephemeral key, with no final equality conjunct, so
by pigeonhole (infinitely many strings, finitely many digests) every
ephemeral key admits two distinct inputs that collide and compare
equal. -/
theorem claim_C7_counterexample :
    ∃ (rk : List Nat) (a b : String),
      a ≠ b ∧ timeSafeCompareAsync rk a b = true := by
  obtain ⟨a, b, hne, heq⟩ := timeSafeCompareAsync_collision []
  exact ⟨[], a, b, hne, heq⟩

/-- Claim C7 (amended): the synchronous constant-time comparator returns
true exactly when its inputs are equal (for every ephemeral HMAC key),
inputs of unequal length simply compare unequal, and both comparators
are total functions.  The asynchronous comparator, by contrast, decides
only equality of the HMAC-SHA-256 digests of its inputs under the
ephemeral key: equal inputs always compare true, but the converse fails
(see the counterexample). -/
theorem claim_C7_compare_iff :
    (∀ (rk : List Nat) (a b : String),
      timeSafeCompare rk a b = true ↔ a = b) ∧
    (∀ (rk : List Nat) (a b : String), a.length ≠ b.length →
      timeSafeCompare rk a b = false) ∧
    (∀ (rk : List Nat) (a b : String),
      timeSafeCompareAsync rk a b = true ↔
        hmac sha256 rk (strBytes a) = hmac sha256 rk (strBytes b)) := by
  refine ⟨fun rk a b => ?_, fun rk a b h => ?_, fun rk a b => ?_⟩
  · rw [timeSafeCompare_eq]
    exact beq_iff_eq
  · rw [timeSafeCompare_eq]
    exact beq_eq_false_iff_ne.mpr (fun he => h (he ▸ rfl))
  · unfold timeSafeCompareAsync
    exact beq_iff_eq

/-- Claim C7 witness: the comparators at concrete inputs, including a
length mismatch, with the hypothesis discharged by evaluation. -/
theorem claim_C7_compare_iff_witness :
    (timeSafeCompare [9] "ab" "ab" = true ↔ ("ab" : String) = "ab") ∧
    timeSafeCompare [9] "a" "bb" = false ∧
    (timeSafeCompareAsync [9] "ab" "cd" = true ↔
      hmac sha256 [9] (strBytes "ab") = hmac sha256 [9] (strBytes "cd")) :=
  ⟨claim_C7_compare_iff.1 [9] "ab" "ab",
   claim_C7_compare_iff.2.1 [9] "a" "bb" (by decide),
   claim_C7_compare_iff.2.2 [9] "ab" "cd"⟩

set_option maxRecDepth 1000000 in
/-- Claim C8 counterexample: two distinct key strings can validate each
other's tokens.  The asynchronous variant decodes keys with the
multiformats base64 codec, which strips trailing `=`, so the distinct
strings `AAAA` and `AAAA=` denote the same HMAC key: a token created
under the first verifies under the second, where the claim asserts
verification must fail. -/
theorem claim_C8_counterexample :
    ("AAAA" : String) ≠ "AAAA=" ∧
    createSessionAsync [("hello", "world")] "AAAA" =
      some ((createSessionAsync [("hello", "world")] "AAAA").getD "") ∧
    verifySessionStringAsync []
      ((createSessionAsync [("hello", "world")] "AAAA").getD "") "AAAA=" =
      true := by
  refine ⟨by decide, by rfl, by decide⟩

/-- Claim C8 (amended): a token created under `k1` does not verify under
`k2` provided the two keys actually produce different signatures over the
token's canonical payload (synchronous variant), respectively provided
the recomputation under `k2` either throws or yields a signature whose
ephemeral-key HMAC differs from that of the stored one (asynchronous
variant, whose comparator checks digest equality only).  Distinctness of
the key strings alone is not sufficient: keys that decode or hash to the
same HMAC key sign identically. -/
theorem claim_C8_wrong_key :
    (∀ (rk : List Nat) (d : SessionData) (k1 k2 : String),
      sign (stringify d) k1 ≠ sign (stringify d) k2 →
      verifySessionString rk (createSession d k1) k2 = false) ∧
    (∀ (rk : List Nat) (d : SessionData) (k1 k2 t : String),
      createSessionAsync d k1 = some t →
      asyncSigDiffers rk
        (String.mk (t.toList.take SIGNATURE_DIGEST_LENGTH_ASYNC)) d k2 =
        true →
      verifySessionStringAsync rk t k2 = false) :=
  ⟨verifySessionString_wrong_key, verifySessionStringAsync_wrong_key⟩

set_option maxRecDepth 1000000 in
/-- Claim C8 witness: rejection under a genuinely different key at
concrete inputs, for both variants. -/
theorem claim_C8_wrong_key_witness :
    verifySessionString [] (createSession [("h", "w")] "k1") "k2" =
      false ∧
    verifySessionStringAsync []
      ((createSessionAsync [("h", "w")] "AAAA").getD "") "AAAB" =
      false := by
  constructor
  · exact claim_C8_wrong_key.1 [] [("h", "w")] "k1" "k2" (by decide)
  · exact claim_C8_wrong_key.2 [] [("h", "w")] "AAAA" "AAAB" _ (by rfl)
      (by decide)

set_option maxRecDepth 1000000 in
/-- Claim C9 counterexample: called without an algorithm option, the
synchronous `sign` uses `opts?.algorithm || 'sha1'`: its output equals
the explicit SHA-1 selection and differs from the explicit SHA-256
selection, refuting the claim that the default is a 256-bit-class
digest. -/
theorem claim_C9_counterexample :
    signAlgo "data" "key" none =
      signAlgo "data" "key" (some SyncAlg.sha1Alg) ∧
    signAlgo "data" "key" none ≠
      signAlgo "data" "key" (some SyncAlg.sha256Alg) := by
  refine ⟨rfl, by decide⟩

/-- Claim C9 (amended): the synchronous `sign` defaults to the 160-bit
HMAC-SHA1 (matching its 27-character framing constant); it is the
asynchronous variant whose `sign` uses HMAC-SHA-256. -/
theorem claim_C9_default_algorithm :
    (∀ data key : String,
      signAlgo data key none =
        signAlgo data key (some SyncAlg.sha1Alg)) ∧
    (∀ data key : String,
      (signAlgo data key none).length = SIGNATURE_DIGEST_LENGTH) ∧
    (∀ (data key : String) (kb : List Nat), b64Decode key = some kb →
      signAsync data key = some (String.mk (urlSafe (b64EncodeCore
        (hmac sha256 kb (strBytes data)))))) := by
  refine ⟨fun data key => rfl, fun data key => sign_length data key,
    fun data key kb h => signAsync_some data key kb h⟩

set_option maxRecDepth 1000000 in
/-- Claim C9 witness: the default-algorithm facts at concrete inputs,
with the key-decoding hypothesis discharged by evaluation. -/
theorem claim_C9_default_algorithm_witness :
    signAlgo "d" "k" none = signAlgo "d" "k" (some SyncAlg.sha1Alg) ∧
    (signAlgo "d" "k" none).length = SIGNATURE_DIGEST_LENGTH ∧
    signAsync "d" "AAAA" = some (String.mk (urlSafe (b64EncodeCore
      (hmac sha256 [0, 0, 0] (strBytes "d"))))) :=
  ⟨claim_C9_default_algorithm.1 "d" "k",
   claim_C9_default_algorithm.2.1 "d" "k",
   claim_C9_default_algorithm.2.2 "d" "AAAA" [0, 0, 0] (by decide)⟩

set_option maxRecDepth 1000000 in
/-- Claim C10 counterexample: for the input `session` (a lone attribute
with no `=`), there is no `session=value` pair, yet the returned mapping
binds `session` to the boolean `true`, not to the empty string the claim
asserts. -/
theorem claim_C10_counterexample :
    parseCookie "session" some "session" = some CookieVal.flag ∧
    some CookieVal.flag ≠ some (CookieVal.str "") := by
  refine ⟨by decide, by decide⟩

/-- Claim C10 (amended): the mapping returned by `parseCookie` always
contains the key `session`; it is the empty string when no
semicolon-separated item names `session` at all; an attribute maps to
the boolean `true` when its last occurrence appears without a value; and
an attribute whose last occurrence carries a value after `=` maps to
that value passed through the decoder — in particular `session` itself
takes the value of the last `session=value` item.  Later occurrences of
the same name overwrite earlier ones, and a bare `session` item
overwrites the empty-string seed. -/
theorem claim_C10_mapping :
    (∀ (cookie : String) (dec : String → Option String),
      (parseCookie cookie dec "session").isSome = true) ∧
    (∀ (cookie : String) (dec : String → Option String),
      (∀ it ∈ cookieItems cookie, it.headD "" ≠ "session") →
      parseCookie cookie dec "session" = some (CookieVal.str "")) ∧
    (∀ (cookie : String) (dec : String → Option String) (k : String)
        (it : List String),
      ((cookieItems cookie).filter
        (fun x => x.headD "" == k)).getLast? = some it →
      it[1]? = none →
      parseCookie cookie dec k = some CookieVal.flag) ∧
    (∀ (cookie : String) (dec : String → Option String) (k : String)
        (it : List String) (v : String),
      ((cookieItems cookie).filter
        (fun x => x.headD "" == k)).getLast? = some it →
      it[1]? = some v →
      parseCookie cookie dec k = some (CookieVal.str (tryDecode v dec))) := by
  refine ⟨fun cookie dec => ?_, fun cookie dec h => ?_,
    fun cookie dec k it hlast h1 => ?_,
    fun cookie dec k it v hlast h1 => ?_⟩
  · rw [parseCookie_lookup]
    rcases hl : ((cookieItems cookie).filter
        (fun x => x.headD "" == "session")).getLast? with _ | it
    · rw [hl]
      rfl
    · rw [hl]
      rfl
  · have hfl : (cookieItems cookie).filter
        (fun x => x.headD "" == "session") = [] := by
      rw [List.filter_eq_nil_iff]
      intro a ha
      simpa using h a ha
    rw [parseCookie_lookup, hfl]
    rfl
  · rw [parseCookie_lookup, hlast]
    show some (match it[1]? with
      | some v => CookieVal.str (tryDecode v dec)
      | none => CookieVal.flag) = some CookieVal.flag
    rw [h1]
  · rw [parseCookie_lookup, hlast]
    show some (match it[1]? with
      | some w => CookieVal.str (tryDecode w dec)
      | none => CookieVal.flag) = some (CookieVal.str (tryDecode v dec))
    rw [h1]

set_option maxRecDepth 1000000 in
/-- Claim C10 witness: the amended mapping facts at concrete cookie
strings, hypotheses discharged by evaluation. -/
theorem claim_C10_mapping_witness :
    (parseCookie "Path=/; HttpOnly" some "session").isSome = true ∧
    parseCookie "Path=/" some "session" = some (CookieVal.str "") ∧
    parseCookie "a=1; HttpOnly" some "HttpOnly" = some CookieVal.flag ∧
    parseCookie "session=x; session=abc" some "session" =
      some (CookieVal.str (tryDecode "abc" some)) := by
  refine ⟨claim_C10_mapping.1 "Path=/; HttpOnly" some,
    claim_C10_mapping.2.1 "Path=/" some (by decide),
    claim_C10_mapping.2.2.1 "a=1; HttpOnly" some "HttpOnly" ["HttpOnly"]
      (by decide) (by decide),
    claim_C10_mapping.2.2.2 "session=x; session=abc" some "session"
      ["session", "abc"] "abc" (by decide) (by decide)⟩
